import Mathlib

/-!
# barlogalights: frame buffer, segment iteration and render cycle

A shallow embedding of `barlogalights.go`.

* Go `uint8` values are natural numbers; the one place where the source does
  byte arithmetic (`0xe0 + a`) carries an explicit `% 256`.
* Go `int` values (pixel indices, the frame counter) and `time.Duration`
  (nanoseconds) are integers.  The animations are stated on exact integers:
  every index of the program is below 749.  Where the size of `int` decides
  what the code does, the definitions take the number of bits `w` of `int` and
  wrap around as the machine does (`wrapInt`): the loop variable of `Foreach`
  (`Line.ForeachW`) and `Cycle++` in the render cycle (`PaintEnv.cycle`).
* Go `float64` values are used by `colorPlosion` only, which stores a hue and
  hands it to `HSLToRGB`; they are rationals there.  `HSLToRGB` itself is not
  embedded: the colour bytes it yields are a parameter.  Arithmetic whose
  result depends on `float64` rounding (the hue steps of `random`, the colour
  conversion) is outside the model.
* `panic` is `Except.error`; a method with a pointer receiver takes the old
  value and returns the new one.
* The strip length `NumLight` is a compile-time constant of the source.  Every
  definition takes the strip length `N` as a parameter, and `NumLight` is the
  value the program is built with.
-/

namespace Barlogalights

/-! ## Constants and the frame buffer -/

/-- The number of lights in the strip (`const NumLight = 46 * 4`). -/
def NumLight : Nat := 46 * 4

/-- The number of leading zero bytes (`startBytes = 4`). -/
def startBytes : Nat := 4

/-- The number of trailing bytes, `stopBytes = ((NumLight / 2) / 8) + 1`, with Go's
integer division. -/
def stopBytes (N : Nat) : Nat := ((N / 2) / 8) + 1

/-- The array length of `type Mem [4 + NumLight*4 + stopBytes]byte`. -/
def memLen (N : Nat) : Nat := 4 + N * 4 + stopBytes N

/-- The type `Mem`: a byte array of fixed length `4 + N*4 + stopBytes`. -/
abbrev Mem (N : Nat) : Type := { l : List Nat // l.length = memLen N }

/-- The maximum brightness level, `maxBright = 0xff - 0xe0`. -/
def maxBright : Nat := 0xff - 0xe0

/-- The zero value of `Mem` (`var m Mem`): every byte is 0. -/
def Mem.zeroValue (N : Nat) : Mem N := ⟨List.replicate (memLen N) 0, by simp⟩

/-- The byte at offset `i` of the array (0 beyond the end, which the accessors
below never reach). -/
def Mem.byte {N : Nat} (m : Mem N) (i : Nat) : Nat := m.1.getD i 0

/-- The four stores `s[0] = 0xe0 + a; s[1] = b; s[2] = g; s[3] = r` into
`s := m[o:]`. -/
def Mem.store4 {N : Nat} (m : Mem N) (o : Nat) (r g b a : Nat) : Mem N :=
  ⟨(((m.1.set o ((0xe0 + a) % 256)).set (o + 1) b).set (o + 2) g).set (o + 3) r,
    by simp [m.2]⟩

/-- The method `Mem.setLight`.  The three guards are the three `panic`s of the source, in the
same order; the fourth is Go's own bounds check on `m[4+n*4:]` and `s[3]`. -/
def Mem.setLight {N : Nat} (m : Mem N) (n : Int) (r g b a : Nat) : Except String (Mem N) :=
  if a > maxBright then
    Except.error "a too high; max is 31"
  else if n ≥ (N : Int) then
    Except.error "n too big"
  else if n < 0 then
    Except.error "negative n"
  else
    let o : Nat := (4 + n * 4).toNat
    if o + 3 < m.1.length then
      Except.ok (m.store4 o r g b a)
    else
      Except.error "index out of range"

/-- The method `Mem.maybeSetLight`. -/
def Mem.maybeSetLight {N : Nat} (m : Mem N) (n : Int) (r g b a : Nat) :
    Except String (Mem N) :=
  if n < 0 ∨ n ≥ (N : Int) then
    Except.ok m
  else
    m.setLight n r g b a

/-- The method `Mem.zero`: `for i := 0; i < NumLight; i++ { m.setLight(i, 0, 0, 0, 0) }`. -/
def Mem.zero {N : Nat} (m : Mem N) : Except String (Mem N) :=
  (List.range N).foldlM (fun (acc : Mem N) (i : Nat) => acc.setLight (i : Int) 0 0 0 0) m

/-- The loop `for i := range s { s[i] = 0xff }` over `s := m[off:]`, after its first `k`
iterations. -/
def Mem.fillStop {N : Nat} (m : Mem N) (off : Nat) : Nat → Mem N
  | 0 => m
  | k + 1 => ⟨(Mem.fillStop m off k).1.set (off + k) 0xff, by simp [(Mem.fillStop m off k).2]⟩

/-- The method `Mem.init`: fill `s := m[4+NumLight*4:]` with `0xff` (`len(s)` iterations),
then `m.zero()`. -/
def Mem.init {N : Nat} (m : Mem N) : Except String (Mem N) :=
  let off : Nat := 4 + N * 4
  (m.fillStop off (m.1.length - off)).zero

/-- The bus `spi.Conn`, seen from this program: `Tx` takes the bytes to write and returns an
error or nothing. -/
structure Conn where
  Tx : List Nat → Option String

/-- The four wire bytes of pixel `n`: offsets `4+4n .. 4+4n+3`. -/
def Mem.wire {N : Nat} (m : Mem N) (n : Nat) : List Nat :=
  [m.byte (4 + 4 * n), m.byte (4 + 4 * n + 1), m.byte (4 + 4 * n + 2), m.byte (4 + 4 * n + 3)]

/-- A call of one of the three mutating methods of `Mem` that run after `init`. -/
inductive MemOp where
  | setLight (n : Int) (r g b a : Nat)
  | maybeSetLight (n : Int) (r g b a : Nat)
  | zero

/-- Perform one call. -/
def Mem.apply {N : Nat} (m : Mem N) : MemOp → Except String (Mem N)
  | MemOp.setLight n r g b a => m.setLight n r g b a
  | MemOp.maybeSetLight n r g b a => m.maybeSetLight n r g b a
  | MemOp.zero => m.zero

/-- Perform a sequence of calls, in order, stopping at the first failure. -/
def Mem.applyAll {N : Nat} (m : Mem N) (ops : List MemOp) : Except String (Mem N) :=
  ops.foldlM Mem.apply m

/-- The slice `m[:]`: the whole array, in order. -/
def Mem.frame {N : Nat} (m : Mem N) : List Nat := m.1

/-- The method `Mem.send`: `c.Tx(m[:], nil)`. -/
def Mem.send {N : Nat} (m : Mem N) (c : Conn) : Option String := c.Tx m.frame

/-- The encoding scenario on a strip of length `N`: a fresh buffer, `init`,
`setLight(0,255,0,0,31)`, `setLight(N-1,0,0,255,10)`, then the frame `m[:]`. -/
def scenario (N : Nat) : Except String (List Nat) := do
  let m ← (Mem.zeroValue N).init
  let m ← m.setLight 0 255 0 0 31
  let m ← m.setLight ((N : Int) - 1) 0 0 255 10
  pure m.frame

/-- A frame made of four leading zero bytes, the four bytes `first` of pixel 0, `N - 2` copies
of `blk`, the four bytes `last` of pixel `N - 1`, and `stopBytes` bytes `0xff`. -/
def scenarioFrame (N : Nat) (first blk last : List Nat) : List Nat :=
  [0, 0, 0, 0] ++ first ++ (List.replicate (N - 2) blk).flatten ++ last ++
    List.replicate (stopBytes N) 0xff

/-- The number of trailing bytes in the words of the specification,
`ceil((N/2)/8) + 1`, to be compared with `stopBytes`. -/
def stopBytesCeil (N : Nat) : Nat := ⌈((N : ℚ) / 2) / 8⌉₊ + 1

/-! ## Machine integers

The size of Go's `int` depends on the target: 32 bits on the ARM board the source's build
comment names (`GOARCH=arm`), 64 bits on a 64-bit machine.  `w` is that number of bits. -/

/-- The largest value of an `int` of `w` bits. -/
def maxInt (w : Nat) : Int := 2 ^ (w - 1) - 1

/-- The smallest value of an `int` of `w` bits. -/
def minInt (w : Nat) : Int := -(2 ^ (w - 1))

/-- The value that `int` arithmetic of `w` bits yields when the exact result is `x`: Go wraps
around, so it is the integer in `minInt w .. maxInt w` that differs from `x` by a multiple of
`2^w`. -/
def wrapInt (w : Nat) (x : Int) : Int := (x + 2 ^ (w - 1)) % 2 ^ w - 2 ^ (w - 1)

/-! ## Segments, pixels and the paint environment -/

/-- A cardinal direction (`type CardDir byte`). -/
inductive CardDir where
  | North
  | South
  | East
  | West
  deriving DecidableEq, Repr

/-- A `Line`: a run of lights `Low .. High`. -/
structure Line where
  Low : Int
  High : Int
  Dir : CardDir

/-- A `Pixel`: the light number `N`.  The environment pointer `e` of the source is the state
threaded through the callbacks. -/
structure Pixel where
  N : Int

/-- The loop of `Line.Foreach`, `for i := ln.Low; i <= ln.High; i++ { fn(Pixel{e, i}) }`, from
the value `i` of the loop variable.  The callback acts on a state of type `σ` and may panic.
`fuel` bounds the number of iterations; `Line.Foreach` supplies `High + 1 - Low`, and
`Line.loop_of_fuel` shows the result is the same for every larger bound. -/
def Line.loop {σ : Type} (high : Int) (fn : Pixel → σ → Except String σ) :
    Nat → Int → σ → Except String σ
  | 0, _, s => Except.ok s
  | fuel + 1, i, s =>
    if i ≤ high then
      match fn ⟨i⟩ s with
      | Except.ok s' => Line.loop high fn fuel (i + 1) s'
      | Except.error msg => Except.error msg
    else
      Except.ok s

/-- The method `Line.Foreach`, the loop variable being an exact integer.  It is the method on
every machine for a line that ends below the largest `int` (`Line.ForeachW_eq_Foreach`), as
every line of the program does. -/
def Line.Foreach {σ : Type} (ln : Line) (fn : Pixel → σ → Except String σ) (s : σ) :
    Except String σ :=
  Line.loop ln.High fn (ln.High + 1 - ln.Low).toNat ln.Low s

/-- The loop of `Line.Foreach` on a machine whose `int` has `w` bits: `i++` wraps around.
The result is `none` when `fuel` iterations were not enough for the loop to end, `some` of
the final state or of the panic otherwise. -/
def Line.loopW {σ : Type} (w : Nat) (high : Int) (fn : Pixel → σ → Except String σ) :
    Nat → Int → σ → Option (Except String σ)
  | 0, _, _ => none
  | fuel + 1, i, s =>
    if i ≤ high then
      match fn ⟨i⟩ s with
      | Except.ok s' => Line.loopW w high fn fuel (wrapInt w (i + 1)) s'
      | Except.error msg => some (Except.error msg)
    else
      some (Except.ok s)

/-- The method `Line.Foreach` on a machine whose `int` has `w` bits, run for at most `fuel`
evaluations of the loop test. -/
def Line.ForeachW {σ : Type} (w fuel : Nat) (ln : Line) (fn : Pixel → σ → Except String σ)
    (s : σ) : Option (Except String σ) :=
  Line.loopW w ln.High fn fuel ln.Low s

/-- The indices `low, low + 1, ..., high`, ascending; empty when `low > high`. -/
def indices (low high : Int) : List Int :=
  (List.range (high + 1 - low).toNat).map (fun (k : Nat) => low + (k : Int))

/-- The line `All = Line{0, NumLight - 1, North}`. -/
def All (N : Nat) : Line := ⟨0, (N : Int) - 1, CardDir.North⟩

/-- One millisecond as a `time.Duration` (nanoseconds). -/
def Millisecond : Int := 1000000

/-- The state of `PaintEnv` that the render loop and the animations act on: the embedded
`Mem`, the frame counter `Cycle` and `nextSleep`.  The bus `dev` and the active animation
`Anim` are arguments of `PaintEnv.cycle`; the lock `mu` is held throughout a cycle. -/
structure PaintEnv (N : Nat) where
  Mem : Mem N
  Cycle : Int
  nextSleep : Int

/-- The promoted method `e.setLight` of the embedded `Mem`. -/
def PaintEnv.setLight {N : Nat} (e : PaintEnv N) (n : Int) (r g b a : Nat) :
    Except String (PaintEnv N) :=
  match e.Mem.setLight n r g b a with
  | Except.ok m => Except.ok { e with Mem := m }
  | Except.error msg => Except.error msg

/-- The promoted method `e.maybeSetLight` of the embedded `Mem`. -/
def PaintEnv.maybeSetLight {N : Nat} (e : PaintEnv N) (n : Int) (r g b a : Nat) :
    Except String (PaintEnv N) :=
  match e.Mem.maybeSetLight n r g b a with
  | Except.ok m => Except.ok { e with Mem := m }
  | Except.error msg => Except.error msg

/-- The method `PaintEnv.Sleep`: `e.nextSleep = d`. -/
def PaintEnv.Sleep {N : Nat} (e : PaintEnv N) (d : Int) : PaintEnv N :=
  { e with nextSleep := d }

/-- The method `Pixel.set`: `x.e.setLight(x.N, r, g, b, a)`. -/
def Pixel.set {N : Nat} (x : Pixel) (e : PaintEnv N) (r g b a : Nat) :
    Except String (PaintEnv N) :=
  e.setLight x.N r g b a

/-- The interface `Animation`: one method `Paint(*PaintEnv)`, which may panic. -/
structure Animation (N : Nat) where
  Paint : PaintEnv N → Except String (PaintEnv N)

/-- The method `off.Paint`. -/
def off.Paint {N : Nat} (e : PaintEnv N) : Except String (PaintEnv N) :=
  match (All N).Foreach (fun p e => e.setLight p.N 0 0 0 0) e with
  | Except.ok e' => Except.ok (e'.Sleep (200 * Millisecond))
  | Except.error msg => Except.error msg

/-- One iteration of the loop of `PaintEnv.run` (the `default:` case), for the animation that
is active when the lock is taken, on a machine whose `int` has `w` bits: `e.Cycle++` wraps
around.  The result is the environment after the cycle and the argument of the call
`time.Sleep(d)`, if it is made.  A panic in `Paint` and a failed `send` (`log.Fatalf`) both
end the program. -/
def PaintEnv.cycle {N : Nat} (w : Nat) (e : PaintEnv N) (anim : Animation N) (dev : Conn) :
    Except String (PaintEnv N × Option Int) :=
  let e₀ : PaintEnv N := { e with nextSleep := 0 }
  match anim.Paint e₀ with
  | Except.error msg => Except.error msg
  | Except.ok e₁ =>
    let e₂ : PaintEnv N := { e₁ with Cycle := wrapInt w (e₁.Cycle + 1) }
    let d := e₂.nextSleep
    match e₂.Mem.send dev with
    | some err => Except.error ("send: " ++ err)
    | none => Except.ok (e₂, if d ≠ 0 then some d else none)

/-- A call that an animation makes on the environment during `Paint`.  The animations of the
program read `e.Cycle` and otherwise use the environment through these three methods only
(`Pixel.set` is `setLight`). -/
inductive EnvCall where
  | setLight (n : Int) (r g b a : Nat)
  | maybeSetLight (n : Int) (r g b a : Nat)
  | Sleep (d : Int)

/-- Perform one call on the environment. -/
def PaintEnv.call {N : Nat} (e : PaintEnv N) : EnvCall → Except String (PaintEnv N)
  | EnvCall.setLight n r g b a => e.setLight n r g b a
  | EnvCall.maybeSetLight n r g b a => e.maybeSetLight n r g b a
  | EnvCall.Sleep d => Except.ok (e.Sleep d)

/-- Perform a sequence of calls, in order, stopping at the first panic. -/
def PaintEnv.calls {N : Nat} (e : PaintEnv N) (cs : List EnvCall) : Except String (PaintEnv N) :=
  cs.foldlM PaintEnv.call e

/-- The duration most recently passed to `Sleep` after one more call, `d` being the one
before it. -/
def sleepStep (d : Int) : EnvCall → Int
  | EnvCall.Sleep d' => d'
  | _ => d

/-- The duration passed to the last `Sleep` in a sequence of calls, or 0 if there is none. -/
def lastSleep (cs : List EnvCall) : Int := cs.foldl sleepStep 0

/-- The calls that `off.Paint` makes: `setLight(i,0,0,0,0)` for `i = 0 .. N-1`, then
`Sleep(200ms)`. -/
def off.calls (N : Nat) : List EnvCall :=
  (List.range N).map (fun (i : Nat) => EnvCall.setLight (i : Int) 0 0 0 0) ++
    [EnvCall.Sleep (200 * Millisecond)]

/-- A bus on which every write succeeds. -/
def Conn.good : Conn := ⟨fun _ => none⟩

/-! ## Named segments and the integer animations -/

/-- East glass panel 1: `G1 = Line{82, 126, South}`. -/
def G1 : Line := ⟨82, 126, CardDir.South⟩
/-- Segment `G2 = Line{127, 167, South}`. -/
def G2 : Line := ⟨127, 167, CardDir.South⟩
/-- Segment `G3 = Line{168, 212, South}`. -/
def G3 : Line := ⟨168, 212, CardDir.South⟩
/-- Segment `G4 = Line{213, 255, South}`. -/
def G4 : Line := ⟨213, 255, CardDir.South⟩
/-- Segment `G6 = Line{256, 299, South}`. -/
def G6 : Line := ⟨256, 299, CardDir.South⟩
/-- Segment `G7 = Line{300, 341, South}`. -/
def G7 : Line := ⟨300, 341, CardDir.South⟩
/-- Segment `G8 = Line{342, 385, South}`. -/
def G8 : Line := ⟨342, 385, CardDir.South⟩
/-- Segment `G9 = Line{386, 429, South}`. -/
def G9 : Line := ⟨386, 429, CardDir.South⟩
/-- Segment `F5 = Line{430, 462, West}`. -/
def F5 : Line := ⟨430, 462, CardDir.West⟩
/-- Segment `F4 = Line{463, 501, West}`. -/
def F4 : Line := ⟨463, 501, CardDir.West⟩
/-- Segment `F3 = Line{502, 538, West}`. -/
def F3 : Line := ⟨502, 538, CardDir.West⟩
/-- Segment `F2 = Line{539, 575, West}`. -/
def F2 : Line := ⟨539, 575, CardDir.West⟩
/-- Segment `F1 = Line{576, 612, West}`. -/
def F1 : Line := ⟨576, 612, CardDir.West⟩
/-- Segment `GW = Line{613, 654, North}`. -/
def GW : Line := ⟨613, 654, CardDir.North⟩
/-- Segment `FW = Line{655, 705, West}`. -/
def FW : Line := ⟨655, 705, CardDir.West⟩
/-- Segment `WoodW = Line{706, 748, North}`. -/
def WoodW : Line := ⟨706, 748, CardDir.North⟩

/-- The array `segs` (with `G4` twice and no `G5`, as in the source). -/
def segs : List Line :=
  [G1, G2, G3, G4, G4, G6, G7, G8, G9, F5, F4, F3, F2, F1, GW, FW, WoodW]

/-- The conversion `byte(a)` of an `int`. -/
def byteOf (a : Int) : Nat := (a % 256).toNat

/-- The loop `for s := lo; s <= hi; s++ { body }` on a state of type `σ`; it has the shape of
the loop of `Line.Foreach`. -/
def forRange {σ : Type} (lo hi : Int) (body : Int → σ → Except String σ) (s : σ) :
    Except String σ :=
  Line.loop hi (fun p => body p.N) (hi + 1 - lo).toNat lo s

/-- The colour and brightness `r, g, b, a` that `seahawks.Paint` picks for the segment at
position `i` of `segs`: `switch i % 2`. -/
def seahawks.colour (i : Nat) : Nat × Nat × Nat × Nat :=
  match i % 2 with
  | 0 => (0, 0, 30, maxBright / 3 * 2)
  | 1 => (0, 167, 1, maxBright / 3)
  | _ => (0, 0, 0, 0)

/-- The loop `for i, seg := range segs` of `seahawks.Paint`, over the remaining segments
`sg`, the next one being at position `i`. -/
def seahawks.loop {N : Nat} : List Line → Nat → PaintEnv N → Except String (PaintEnv N)
  | [], _, e => Except.ok e
  | seg :: sg, i, e =>
    match seg.Foreach (fun p e =>
        p.set e (seahawks.colour i).1 (seahawks.colour i).2.1 (seahawks.colour i).2.2.1
          (seahawks.colour i).2.2.2) e with
    | Except.ok e' => seahawks.loop sg (i + 1) e'
    | Except.error msg => Except.error msg

/-- The method `seahawks.Paint`. -/
def seahawks.Paint {N : Nat} (e : PaintEnv N) : Except String (PaintEnv N) :=
  match seahawks.loop segs 0 e with
  | Except.ok e' => Except.ok (e'.Sleep (300 * Millisecond))
  | Except.error msg => Except.error msg

/-- The colour class that `snakeRedGreen.Paint` computes for pixel `n` at frame counter `c`:
`pos := (n - c) / 25; pos %= 2; if pos < 0 { pos = -pos }`, with Go's truncating `/` and
`%`. -/
def snakeRedGreen.pos (n c : Int) : Int :=
  let pos := Int.tmod (Int.tdiv (n - c) 25) 2
  if pos < 0 then -pos else pos

/-- The value `a` of `snakeRedGreen.Paint`: `a := (n - c) % 25; if a < 0 { a = -a }`. -/
def snakeRedGreen.a (n c : Int) : Int :=
  let a := Int.tmod (n - c) 25
  if a < 0 then -a else a

/-- The callback of `snakeRedGreen.Paint`. -/
def snakeRedGreen.fn {N : Nat} (p : Pixel) (e : PaintEnv N) : Except String (PaintEnv N) :=
  let orig := Int.tdiv (p.N - e.Cycle) 25
  let pos := snakeRedGreen.pos p.N e.Cycle
  let bright := (6 + byteOf (snakeRedGreen.a p.N e.Cycle)) % 256
  if pos = 0 then
    p.set e 0xff 0 0 bright
  else if pos = 1 then
    p.set e 0 0xff 0 bright
  else
    Except.error ("not 0 or 1: " ++ toString orig ++ " % 2 = " ++ toString pos)

/-- The method `snakeRedGreen.Paint`. -/
def snakeRedGreen.Paint {N : Nat} (e : PaintEnv N) : Except String (PaintEnv N) :=
  (All N).Foreach snakeRedGreen.fn e

/-- The colour class in the words of the specification: `floor((n - c)/25) mod 2`, mirrored
to its absolute value when negative. -/
def floorClass (n c : Int) : Int :=
  let pos := Int.fmod (Int.fdiv (n - c) 25) 2
  if pos < 0 then -pos else pos

/-- The bounds `from, to` of the band that `candyCane.Paint` draws for the segment `seg` when
`int(cos)` is `d`: `to := seg.Low + d`, swapped if `to < from`, then `from` raised to 0 and
`to` lowered to `NumLight`. -/
def candyCane.band (N : Nat) (seg : Line) (d : Int) : Int × Int :=
  let from₀ := seg.Low
  let to₀ := seg.Low + d
  let from₁ := if to₀ < from₀ then to₀ else from₀
  let to₁ := if to₀ < from₀ then from₀ else to₀
  let from₂ := if from₁ < 0 then 0 else from₁
  let to₂ := if to₁ ≥ (N : Int) then (N : Int) else to₁
  (from₂, to₂)

/-- The loop `for n := from; n <= to; n++ { e.setLight(n, 255, 255, 255, maxBright) }` of
`candyCane.Paint` for one segment. -/
def candyCane.drawBand {N : Nat} (e : PaintEnv N) (seg : Line) (d : Int) :
    Except String (PaintEnv N) :=
  forRange (candyCane.band N seg d).1 (candyCane.band N seg d).2
    (fun n e => e.setLight n 255 255 255 maxBright) e

/-! ## The animation `colorPlosion`

`float64` values (hues, random numbers in `[0,1)`) are rationals.  The colour bytes
`byte(rf*255), byte(gf*255), byte(bf*255)` that the source obtains from `HSLToRGB(h, 1.0, 0.5)`
are a parameter `rgb` of the animations that use them: no statement below depends on which
bytes they are.  A pointer `*grower` is the position of the grower in the list `heap` of all
growers allocated so far. -/

/-- The struct `grower`. -/
structure grower where
  Origin : Int
  Size : Int
  Hue : ℚ

/-- The struct `colorPlosion`: the map `m` (`none` is the nil map; the keys are the active
growers, every value is `true`) and the slice `growers`, with the growers they point to. -/
structure colorPlosion where
  heap : List grower
  m : Option (Finset Nat)
  growers : List Nat

/-- A fresh `&colorPlosion{}`: nil map, nil slice. -/
def colorPlosion.fresh : colorPlosion := ⟨[], none, []⟩

/-- The constant `maxGrowers`. -/
def maxGrowers : Nat := 10

/-- The constant `maxSize` of `colorPlosion.Paint`. -/
def maxSize : Int := 80

/-- The value `len(a.m)`; the length of a nil map is 0. -/
def colorPlosion.mapLen (a : colorPlosion) : Nat :=
  match a.m with
  | none => 0
  | some ks => ks.card

/-- The block `if e.Cycle == 0 { ... }` of `colorPlosion.Paint`: every pixel is set to
`(0,0,0,0)` and `a.m` becomes a new empty map. -/
def colorPlosion.reset {N : Nat} (a : colorPlosion) (e : PaintEnv N) :
    Except String (colorPlosion × PaintEnv N) :=
  if e.Cycle = 0 then
    match (All N).Foreach (fun p e => p.set e 0 0 0 0) e with
    | Except.ok e' => Except.ok ({ a with m := some ∅ }, e')
    | Except.error msg => Except.error msg
  else
    Except.ok (a, e)

/-- The block `if len(a.m) < maxGrowers { ... }` of `colorPlosion.Paint`, for the random
values `origin = rand.Intn(NumLight)` and `u = rand.Float64()`: a new grower is allocated,
entered in the map (a panic on the nil map) and appended to `a.growers`, which is then trimmed
to the growers that are in the map. -/
def colorPlosion.spawn (a : colorPlosion) (origin : Int) (u : ℚ) : Except String colorPlosion :=
  if a.mapLen < maxGrowers then
    match a.m with
    | none => Except.error "assignment to entry in nil map"
    | some ks =>
      let gr : Nat := a.heap.length
      let ks' : Finset Nat := insert gr ks
      Except.ok
        { heap := a.heap ++ [⟨origin, 0, u * 360⟩],
          m := some ks',
          growers := (a.growers ++ [gr]).filter (fun g => g ∈ ks') }
  else
    Except.ok a

/-- The body of `for s := 0; s <= gr.Size; s++` of `colorPlosion.Paint`. -/
def colorPlosion.ring {N : Nat} (origin : Int) (c : Nat × Nat × Nat) (s : Int)
    (e : PaintEnv N) : Except String (PaintEnv N) :=
  match e.maybeSetLight (origin + s) c.1 c.2.1 c.2.2 maxBright with
  | Except.ok e' => e'.maybeSetLight (origin - s) c.1 c.2.1 c.2.2 maxBright
  | Except.error msg => Except.error msg

/-- The body of `for _, gr := range a.growers` of `colorPlosion.Paint`, for the grower at
`gr`: it grows by 2 and is deleted from the map when larger than `maxSize`; otherwise its ring
is drawn. -/
def colorPlosion.grow {N : Nat} (rgb : ℚ → Nat × Nat × Nat) (gr : Nat)
    (st : colorPlosion × PaintEnv N) : Except String (colorPlosion × PaintEnv N) :=
  match st.1.heap[gr]? with
  | none => Except.error "invalid memory address or nil pointer dereference"
  | some g =>
    let g' : grower := { g with Size := g.Size + 2 }
    let a' : colorPlosion := { st.1 with heap := st.1.heap.set gr g' }
    if g'.Size > maxSize then
      Except.ok ({ a' with m := a'.m.map (fun ks => ks.erase gr) }, st.2)
    else
      match forRange 0 g'.Size (colorPlosion.ring g'.Origin (rgb g'.Hue)) st.2 with
      | Except.ok e' => Except.ok (a', e')
      | Except.error msg => Except.error msg

/-- The loop `for _, gr := range a.growers` of `colorPlosion.Paint`. -/
def colorPlosion.draw {N : Nat} (rgb : ℚ → Nat × Nat × Nat) (a : colorPlosion)
    (e : PaintEnv N) : Except String (colorPlosion × PaintEnv N) :=
  a.growers.foldlM (fun st gr => colorPlosion.grow rgb gr st) (a, e)

/-- The method `colorPlosion.Paint`, for the random values `origin` and `u` of this frame
(used only if a grower is spawned). -/
def colorPlosion.Paint {N : Nat} (rgb : ℚ → Nat × Nat × Nat) (a : colorPlosion)
    (origin : Int) (u : ℚ) (e : PaintEnv N) : Except String (colorPlosion × PaintEnv N) :=
  match a.reset e with
  | Except.error msg => Except.error msg
  | Except.ok (a₀, e₀) =>
    match a₀.spawn origin u with
    | Except.error msg => Except.error msg
    | Except.ok a₁ => a₁.draw rgb e₀

/-- Consecutive frames of `colorPlosion`: `Paint`, then `e.Cycle++` as in `run`, with the
random values of each frame. -/
def colorPlosion.frames {N : Nat} (rgb : ℚ → Nat × Nat × Nat) :
    List (Int × ℚ) → colorPlosion × PaintEnv N → Except String (colorPlosion × PaintEnv N)
  | [], st => Except.ok st
  | rv :: rs, st =>
    match colorPlosion.Paint rgb st.1 rv.1 rv.2 st.2 with
    | Except.ok st' =>
      colorPlosion.frames rgb rs (st'.1, { st'.2 with Cycle := st'.2.Cycle + 1 })
    | Except.error msg => Except.error msg

/-- The pointers in `a.growers` are distinct and point to allocated growers. -/
def colorPlosion.Valid (a : colorPlosion) : Prop :=
  a.growers.Nodup ∧ ∀ g ∈ a.growers, g < a.heap.length

/-- The state of the map between two frames: it is not nil, it has at most `maxGrowers`
keys, every key is in `a.growers`, and if it is full then `a.growers` holds nothing else. -/
def colorPlosion.MapOK (a : colorPlosion) : Prop :=
  ∃ ks : Finset Nat, a.m = some ks ∧ ks.card ≤ maxGrowers ∧ (∀ g ∈ ks, g ∈ a.growers) ∧
    (ks.card = maxGrowers → ∀ g ∈ a.growers, g ∈ ks)

/-- The state at the start of the drawing loop: the map is not nil, it has at most
`maxGrowers` keys, and `a.growers` lists exactly its keys. -/
def colorPlosion.Sync (a : colorPlosion) : Prop :=
  ∃ ks : Finset Nat, a.m = some ks ∧ ks.card ≤ maxGrowers ∧ ∀ g, g ∈ ks ↔ g ∈ a.growers

/-- The state in which a frame may start: at frame counter 0 any instance with at most
`maxGrowers` map entries, later an instance whose map is as described by `MapOK`. -/
def colorPlosion.Good {N : Nat} (a : colorPlosion) (e : PaintEnv N) : Prop :=
  a.Valid ∧ a.mapLen ≤ maxGrowers ∧ (e.Cycle = 0 ∨ (0 < e.Cycle ∧ a.MapOK))

/-- The byte at offset `i` of a pixel area in which pixel `n` holds the colour and brightness
`col n = (r, g, b, a)`: `0xe0 + a`, then `b`, `g`, `r`. -/
def wireByte (col : Nat → Nat × Nat × Nat × Nat) (i : Nat) : Nat :=
  match (i - 4) % 4 with
  | 0 => (0xe0 + (col ((i - 4) / 4)).2.2.2) % 256
  | 1 => (col ((i - 4) / 4)).2.2.1
  | 2 => (col ((i - 4) / 4)).2.1
  | _ => (col ((i - 4) / 4)).1

/-- The colour and brightness that `snakeRedGreen.Paint` gives pixel `n` at frame counter
`c`. -/
def snakeRedGreen.colour (c : Int) (n : Nat) : Nat × Nat × Nat × Nat :=
  if snakeRedGreen.pos n c = 0 then (0xff, 0, 0, (6 + byteOf (snakeRedGreen.a n c)) % 256)
  else (0, 0xff, 0, (6 + byteOf (snakeRedGreen.a n c)) % 256)

/-- The calls that `snakeRedGreen.Paint` makes at frame counter `c`: one `setLight` for
every pixel, in ascending order, and no `Sleep`. -/
def snakeRedGreen.calls (N : Nat) (c : Int) : List EnvCall :=
  (List.range N).map (fun (n : Nat) =>
    EnvCall.setLight (n : Int) (snakeRedGreen.colour c n).1 (snakeRedGreen.colour c n).2.1
      (snakeRedGreen.colour c n).2.2.1 (snakeRedGreen.colour c n).2.2.2)

/-- The calls that the loop of `seahawks.Paint` makes for the segments `sg`, the first of them
at position `i` of `segs`: one `setLight` for every index of every segment. -/
def seahawks.calls : List Line → Nat → List EnvCall
  | [], _ => []
  | seg :: sg, i =>
    (indices seg.Low seg.High).map (fun j =>
      EnvCall.setLight j (seahawks.colour i).1 (seahawks.colour i).2.1
        (seahawks.colour i).2.2.1 (seahawks.colour i).2.2.2) ++ seahawks.calls sg (i + 1)

/-- The two calls of the body of `for s := 0; s <= gr.Size; s++`. -/
def colorPlosion.ringCalls (origin : Int) (c : Nat × Nat × Nat) (s : Int) : List EnvCall :=
  [EnvCall.maybeSetLight (origin + s) c.1 c.2.1 c.2.2 maxBright,
    EnvCall.maybeSetLight (origin - s) c.1 c.2.1 c.2.2 maxBright]

/-- The animation that is the instance `a` of `colorPlosion` for the random values `origin`
and `u` of the frame: what its `Paint` does to the environment. -/
def colorPlosion.anim {N : Nat} (rgb : ℚ → Nat × Nat × Nat) (a : colorPlosion) (origin : Int)
    (u : ℚ) : Animation N :=
  ⟨fun e =>
    match colorPlosion.Paint rgb a origin u e with
    | Except.ok st => Except.ok st.2
    | Except.error msg => Except.error msg⟩

/-- No call of the sequence is a `Sleep`. -/
def noSleep (cs : List EnvCall) : Prop := ∀ c ∈ cs, ∀ d : Int, sleepStep d c = d

/-! ## Frame buffer: basic facts -/

theorem memLen_eq (N : Nat) : memLen N = 4 + N * 4 + (N / 2 / 8 + 1) := rfl

theorem bright_or (a : Nat) (ha : a ≤ 31) : (0xe0 + a) % 256 = 0xe0 ||| a := by
  interval_cases a <;> rfl

theorem Mem.byte_store4 {N : Nat} (m : Mem N) (o r g b a i : Nat) (ho : o + 3 < memLen N) :
    (m.store4 o r g b a).byte i =
      if i = o then (0xe0 + a) % 256 else if i = o + 1 then b else if i = o + 2 then g
      else if i = o + 3 then r else m.byte i := by
  have hl := m.2
  simp only [Mem.byte, Mem.store4, List.getD_eq_getElem?_getD, List.getElem?_set]
  by_cases h0 : i = o
  · subst h0
    have : i < memLen N := by omega
    simp [this, hl]
  by_cases h1 : i = o + 1
  · subst h1
    have : o + 1 < memLen N := by omega
    simp [this, hl]
  by_cases h2 : i = o + 2
  · subst h2
    have : o + 2 < memLen N := by omega
    simp [this, hl]
  by_cases h3 : i = o + 3
  · subst h3
    have : o + 3 < memLen N := by omega
    simp [this, hl]
  have e0 : ¬ o = i := fun h => h0 h.symm
  have e1 : ¬ o + 1 = i := fun h => h1 h.symm
  have e2 : ¬ o + 2 = i := fun h => h2 h.symm
  have e3 : ¬ o + 3 = i := fun h => h3 h.symm
  simp [h0, h1, h2, h3, e0, e1, e2, e3]

theorem list_ext_getD (l₁ l₂ : List Nat) (hlen : l₁.length = l₂.length)
    (h : ∀ i, i < l₁.length → l₁.getD i 0 = l₂.getD i 0) : l₁ = l₂ := by
  apply List.ext_getElem hlen
  intro i h₁ h₂
  have := h i h₁
  rwa [List.getD_eq_getElem _ _ h₁, List.getD_eq_getElem _ _ h₂] at this

theorem getD_splice (l : List Nat) (o i y0 y1 y2 y3 : Nat) (ho : o + 3 < l.length) :
    (l.take o ++ [y0, y1, y2, y3] ++ l.drop (o + 4)).getD i 0 =
      if i = o then y0 else if i = o + 1 then y1 else if i = o + 2 then y2
      else if i = o + 3 then y3 else l.getD i 0 := by
  have hto : (l.take o).length = o := by simp; omega
  simp only [List.getD_eq_getElem?_getD, List.append_assoc]
  by_cases hlt : i < o
  · have a0 : ¬ i = o := by omega
    have a1 : ¬ i = o + 1 := by omega
    have a2 : ¬ i = o + 2 := by omega
    have a3 : ¬ i = o + 3 := by omega
    rw [List.getElem?_append_left (by omega)]
    simp [a0, a1, a2, a3, List.getElem?_take, hlt]
  · rw [List.getElem?_append_right (by omega), hto]
    obtain ⟨k, rfl⟩ : ∃ k, i = o + k := ⟨i - o, by omega⟩
    simp only [Nat.add_sub_cancel_left]
    match k with
    | 0 => simp
    | 1 => simp
    | 2 => simp
    | 3 => simp
    | k + 4 =>
      have a0 : ¬ o + (k + 4) = o := by omega
      have a1 : ¬ o + (k + 4) = o + 1 := by omega
      have a2 : ¬ o + (k + 4) = o + 2 := by omega
      have a3 : ¬ o + (k + 4) = o + 3 := by omega
      simp [a0, a1, a2, a3, List.getElem?_drop]
      congr 2
      omega

theorem Mem.setLight_eq_store4 {N : Nat} (m : Mem N) (n r g b a : Nat)
    (hn : n < N) (ha : a ≤ 31) :
    m.setLight (n : Int) r g b a = Except.ok (m.store4 (4 + 4 * n) r g b a) := by
  have hl := m.2
  have ho : 4 + 4 * n + 3 < memLen N := by rw [memLen_eq]; omega
  have hto : (4 + (n : Int) * 4).toNat = 4 + 4 * n := by omega
  have h1 : ¬ a > maxBright := by simp [maxBright]; omega
  have h2 : ¬ (n : Int) ≥ (N : Int) := by omega
  have h3 : ¬ (n : Int) < 0 := by omega
  simp only [Mem.setLight, h1, h2, h3, if_false, hto]
  rw [if_pos (by omega)]

theorem Mem.setLight_error_of {N : Nat} (m : Mem N) (n : Int) (r g b a : Nat)
    (h : a > 31 ∨ n < 0 ∨ n ≥ (N : Int)) : ∃ msg, m.setLight n r g b a = Except.error msg := by
  unfold Mem.setLight
  by_cases h1 : a > maxBright
  · exact ⟨_, if_pos h1⟩
  · rw [if_neg h1]
    by_cases h2 : n ≥ (N : Int)
    · exact ⟨_, if_pos h2⟩
    · rw [if_neg h2]
      have h3 : n < 0 := by
        rcases h with h | h | h
        · exact absurd h (by simpa [maxBright] using h1)
        · exact h
        · exact absurd h h2
      exact ⟨_, if_pos h3⟩

theorem Mem.setLight_ok_inv {N : Nat} (m m' : Mem N) (n : Int) (r g b a : Nat)
    (h : m.setLight n r g b a = Except.ok m') :
    ∃ k : Nat, k < N ∧ n = (k : Int) ∧ a ≤ 31 ∧ m' = m.store4 (4 + 4 * k) r g b a := by
  by_cases hc : a > 31 ∨ n < 0 ∨ n ≥ (N : Int)
  · obtain ⟨msg, hmsg⟩ := Mem.setLight_error_of m n r g b a hc
    rw [hmsg] at h
    cases h
  · obtain ⟨k, rfl⟩ : ∃ k : Nat, n = (k : Int) := ⟨n.toNat, by omega⟩
    have hk : k < N := by omega
    have ha : a ≤ 31 := by omega
    rw [Mem.setLight_eq_store4 m k r g b a hk ha] at h
    cases h
    exact ⟨k, hk, rfl, ha, rfl⟩

theorem Mem.byte_fillStop {N : Nat} (m : Mem N) (off k i : Nat) :
    (m.fillStop off k).byte i =
      if off ≤ i ∧ i < off + k ∧ i < memLen N then 0xff else m.byte i := by
  induction k with
  | zero =>
    simp only [Mem.fillStop]
    rw [if_neg (by omega)]
  | succ k ih =>
    have hl := (m.fillStop off k).2
    simp only [Mem.byte] at ih
    simp only [Mem.fillStop, Mem.byte, List.getD_eq_getElem?_getD, List.getElem?_set] at ih ⊢
    by_cases h : off + k = i
    · subst h
      by_cases h2 : off + k < memLen N
      · simp [hl, h2]
      · have : (m.fillStop off k).1[off + k]? = none := by
          rw [List.getElem?_eq_none_iff]
          omega
        have h3 : (m.1)[off + k]? = none := by
          rw [List.getElem?_eq_none_iff, m.2]
          omega
        simp [hl, h2, h3]
    · rw [if_neg h, ih]
      by_cases h4 : off ≤ i ∧ i < off + k ∧ i < memLen N
      · rw [if_pos h4, if_pos (by omega)]
      · rw [if_neg h4, if_neg (by omega)]

/-- The array after the first `k` iterations of the loop of `zero`. -/
theorem Mem.zero_loop {N : Nat} (m : Mem N) (k : Nat) (hk : k ≤ N) :
    ∃ m' : Mem N,
      (List.range k).foldlM (fun (acc : Mem N) (i : Nat) => acc.setLight (i : Int) 0 0 0 0) m
        = Except.ok m' ∧
      ∀ i, m'.byte i =
        if 4 ≤ i ∧ i < 4 + 4 * k then (if i % 4 = 0 then 0xe0 else 0) else m.byte i := by
  induction k with
  | zero => exact ⟨m, rfl, fun i => by rw [if_neg (by omega)]⟩
  | succ k ih =>
    obtain ⟨m₁, h₁, hb⟩ := ih (by omega)
    refine ⟨m₁.store4 (4 + 4 * k) 0 0 0 0, ?_, ?_⟩
    · rw [List.range_succ, List.foldlM_append, h₁]
      simp only [List.foldlM, bind, Except.bind, pure, Except.pure]
      rw [Mem.setLight_eq_store4 m₁ k 0 0 0 0 (by omega) (by omega)]
    · intro i
      rw [Mem.byte_store4 m₁ _ 0 0 0 0 i (by rw [memLen_eq]; omega), hb i]
      split_ifs <;> first | rfl | omega

theorem Mem.zero_spec {N : Nat} (m : Mem N) :
    ∃ m' : Mem N, m.zero = Except.ok m' ∧
      ∀ i, m'.byte i =
        if 4 ≤ i ∧ i < 4 + 4 * N then (if i % 4 = 0 then 0xe0 else 0) else m.byte i :=
  Mem.zero_loop m N (Nat.le_refl N)

theorem Mem.init_spec {N : Nat} (m : Mem N) :
    ∃ m' : Mem N, m.init = Except.ok m' ∧
      ∀ i, m'.byte i =
        if 4 ≤ i ∧ i < 4 + 4 * N then (if i % 4 = 0 then 0xe0 else 0)
        else if 4 + 4 * N ≤ i ∧ i < memLen N then 0xff else m.byte i := by
  obtain ⟨m', h, hb⟩ := Mem.zero_spec (m.fillStop (4 + N * 4) (m.1.length - (4 + N * 4)))
  refine ⟨m', h, fun i => ?_⟩
  rw [hb i, Mem.byte_fillStop, m.2, memLen_eq]
  split_ifs <;> first | rfl | omega

theorem Mem.byte_zeroValue (N i : Nat) : (Mem.zeroValue N).byte i = 0 := by
  simp only [Mem.byte, Mem.zeroValue, List.getD_eq_getElem?_getD, List.getElem?_replicate]
  split_ifs <;> rfl

theorem Mem.wire_of_zeroed {N : Nat} (m : Mem N) (n : Nat) (hn : n < N)
    (hb : ∀ i, 4 ≤ i ∧ i < 4 + 4 * N → m.byte i = if i % 4 = 0 then 0xe0 else 0) :
    m.wire n = [0xe0 ||| 0, 0, 0, 0] := by
  have e0 : m.byte (4 + 4 * n) = 0xe0 := by
    rw [hb _ (by omega), if_pos (by omega)]
  have e1 : m.byte (4 + 4 * n + 1) = 0 := by
    rw [hb _ (by omega), if_neg (by omega)]
  have e2 : m.byte (4 + 4 * n + 2) = 0 := by
    rw [hb _ (by omega), if_neg (by omega)]
  have e3 : m.byte (4 + 4 * n + 3) = 0 := by
    rw [hb _ (by omega), if_neg (by omega)]
  simp only [Mem.wire, e0, e1, e2, e3]
  rfl

/-- One call that does not fail leaves the framing bytes as they were. -/
theorem Mem.apply_framing {N : Nat} (m m' : Mem N) (op : MemOp)
    (h : m.apply op = Except.ok m') (i : Nat) (hi : i < 4 ∨ 4 + 4 * N ≤ i) :
    m'.byte i = m.byte i := by
  have hset : ∀ (n : Int) (r g b a : Nat), m.setLight n r g b a = Except.ok m' →
      m'.byte i = m.byte i := by
    intro n r g b a hs
    obtain ⟨k, hk, _, _, rfl⟩ := Mem.setLight_ok_inv m m' n r g b a hs
    rw [Mem.byte_store4 m _ r g b a i (by rw [memLen_eq]; omega)]
    split_ifs <;> first | rfl | omega
  cases op with
  | setLight n r g b a => exact hset n r g b a h
  | maybeSetLight n r g b a =>
    simp only [Mem.apply, Mem.maybeSetLight] at h
    split_ifs at h
    · cases h
      rfl
    · exact hset n r g b a h
  | zero =>
    obtain ⟨m₁, h₁, hb⟩ := Mem.zero_spec m
    simp only [Mem.apply] at h
    rw [h₁] at h
    cases h
    rw [hb i, if_neg (by omega)]

theorem Mem.applyAll_framing {N : Nat} (ops : List MemOp) (m m' : Mem N)
    (h : m.applyAll ops = Except.ok m') (i : Nat) (hi : i < 4 ∨ 4 + 4 * N ≤ i) :
    m'.byte i = m.byte i := by
  induction ops generalizing m with
  | nil =>
    cases h
    rfl
  | cons op ops ih =>
    simp only [Mem.applyAll, List.foldlM] at h
    cases h₁ : m.apply op with
    | error msg =>
      rw [h₁] at h
      cases h
    | ok m₁ =>
      rw [h₁] at h
      rw [ih m₁ h, Mem.apply_framing m m₁ op h₁ i hi]

theorem getD_append_ite (l l' : List Nat) (i : Nat) :
    (l ++ l').getD i 0 = if i < l.length then l.getD i 0 else l'.getD (i - l.length) 0 := by
  split_ifs with h
  · exact List.getD_append l l' 0 i h
  · exact List.getD_append_right l l' 0 i (by omega)

theorem length_blocks (k : Nat) (blk : List Nat) :
    (List.replicate k blk).flatten.length = k * blk.length := by
  induction k with
  | zero => simp
  | succ k ih =>
    rw [List.replicate_succ, List.flatten_cons, List.length_append, ih]
    ring

theorem getD_blocks (k j : Nat) :
    (List.replicate k [0xe0, 0, 0, 0]).flatten.getD j 0 =
      if j < 4 * k ∧ j % 4 = 0 then 0xe0 else 0 := by
  induction k generalizing j with
  | zero => simp
  | succ k ih =>
    rw [List.replicate_succ, List.flatten_cons, getD_append_ite]
    by_cases h : j < 4
    · rw [if_pos (by simpa using h)]
      interval_cases j <;> simp
    · rw [if_neg (by simpa using h), ih]
      have e : (j - [224, 0, 0, 0].length) = j - 4 := rfl
      rw [e]
      split_ifs <;> first | rfl | omega

theorem getD_replicate_ff (k j : Nat) :
    (List.replicate k 0xff).getD j 0 = if j < k then 0xff else 0 := by
  simp only [List.getD_eq_getElem?_getD, List.getElem?_replicate]
  split_ifs <;> rfl

theorem getD_scenarioFrame (N i : Nat) (hN : 2 ≤ N) (f0 f1 f2 f3 l0 l1 l2 l3 : Nat) :
    (scenarioFrame N [f0, f1, f2, f3] [0xe0, 0, 0, 0] [l0, l1, l2, l3]).getD i 0 =
      if i < 4 then 0
      else if i < 8 then [f0, f1, f2, f3].getD (i - 4) 0
      else if i < 4 + 4 * (N - 1) then (if i % 4 = 0 then 0xe0 else 0)
      else if i < 4 + 4 * N then [l0, l1, l2, l3].getD (i - (4 + 4 * (N - 1))) 0
      else if i < memLen N then 0xff else 0 := by
  simp only [scenarioFrame, List.append_assoc, getD_append_ite, getD_blocks, getD_replicate_ff,
    length_blocks, List.length_cons, List.length_nil, memLen_eq, stopBytes]
  have e4 : (0 + 1 + 1 + 1 + 1 : Nat) = 4 := rfl
  simp only [e4]
  by_cases h1 : i < 4
  · rw [if_pos h1, if_pos h1]
    interval_cases i <;> rfl
  rw [if_neg h1, if_neg h1]
  by_cases h2 : i < 8
  · rw [if_pos (by omega), if_pos h2]
  rw [if_neg (by omega), if_neg h2]
  by_cases h3 : i < 4 + 4 * (N - 1)
  · rw [if_pos (by omega), if_pos h3]
    split_ifs <;> first | rfl | omega
  rw [if_neg (by omega), if_neg h3]
  by_cases h4 : i < 4 + 4 * N
  · rw [if_pos (by omega), if_pos h4]
    congr 1
    omega
  rw [if_neg (by omega), if_neg h4]
  split_ifs <;> first | rfl | omega

/-! ## Claims about the frame buffer -/

/-- C1.  For every buffer, every pixel index `n` in `[0,N)` and every `r`, `g`, `b` and
brightness `a ≤ 31`, `setLight(n,r,g,b,a)` succeeds and yields the old buffer with the four
bytes at offsets `4+4n .. 4+4n+3` replaced by `0xE0|a, b, g, r`; the bytes before and after
are those of the old buffer. -/
theorem setLight_replaces_four_bytes {N : Nat} (m : Mem N) (n r g b a : Nat)
    (hn : n < N) (ha : a ≤ 31) :
    ∃ m' : Mem N, m.setLight (n : Int) r g b a = Except.ok m' ∧
      m'.1 = m.1.take (4 + 4 * n) ++ [0xe0 ||| a, b, g, r] ++ m.1.drop (4 + 4 * n + 4) := by
  have hl := m.2
  have ho : 4 + 4 * n + 3 < memLen N := by rw [memLen_eq]; omega
  refine ⟨m.store4 (4 + 4 * n) r g b a, Mem.setLight_eq_store4 m n r g b a hn ha, ?_⟩
  apply list_ext_getD
  · simp [Mem.store4]
    omega
  · intro i _
    have := Mem.byte_store4 m (4 + 4 * n) r g b a i ho
    simp only [Mem.byte] at this
    rw [this, getD_splice _ _ _ _ _ _ _ (by omega), bright_or a ha]

/-- Witness for C1: pixel 1 of a two-pixel strip, brightness 31. -/
theorem setLight_replaces_four_bytes_witness :
    (1 < 2 ∧ 31 ≤ 31) ∧
    ∃ m' : Mem 2, (Mem.zeroValue 2).setLight ((1 : Nat) : Int) 1 2 3 31 = Except.ok m' ∧
      m'.1 = (Mem.zeroValue 2).1.take (4 + 4 * 1) ++ [0xe0 ||| 31, 3, 2, 1] ++
        (Mem.zeroValue 2).1.drop (4 + 4 * 1 + 4) :=
  ⟨by decide, setLight_replaces_four_bytes (Mem.zeroValue 2) 1 1 2 3 31 (by decide) (by decide)⟩

/-- C2.  `setLight(n,r,g,b,a)` fails if and only if `a > 31` or `n < 0` or `n ≥ N`; in
particular, for every in-range `n`, it fails with brightness 32 and succeeds with
brightness 31. -/
theorem setLight_fatal_iff {N : Nat} (m : Mem N) (n : Int) (r g b a : Nat) :
    ((∃ msg, m.setLight n r g b a = Except.error msg) ↔ (a > 31 ∨ n < 0 ∨ n ≥ (N : Int))) ∧
    ((0 ≤ n ∧ n < (N : Int)) →
      (∃ msg, m.setLight n r g b 32 = Except.error msg) ∧
      (∃ m', m.setLight n r g b 31 = Except.ok m')) := by
  refine ⟨⟨?_, Mem.setLight_error_of m n r g b a⟩, ?_⟩
  · rintro ⟨msg, hmsg⟩
    by_contra hc
    have ha : a ≤ 31 := by omega
    obtain ⟨k, rfl⟩ : ∃ k : Nat, n = (k : Int) := ⟨n.toNat, by omega⟩
    rw [Mem.setLight_eq_store4 m k r g b a (by omega) ha] at hmsg
    cases hmsg
  · rintro ⟨h0, hN⟩
    obtain ⟨k, rfl⟩ : ∃ k : Nat, n = (k : Int) := ⟨n.toNat, by omega⟩
    exact ⟨Mem.setLight_error_of m _ r g b 32 (Or.inl (by decide)),
      ⟨_, Mem.setLight_eq_store4 m k r g b 31 (by omega) (by decide)⟩⟩

/-- Witness for C2: pixel 1 of a two-pixel strip is in range. -/
theorem setLight_fatal_iff_witness :
    (0 ≤ (1 : Int) ∧ (1 : Int) < ((2 : Nat) : Int)) ∧
    (∃ msg, (Mem.zeroValue 2).setLight 1 7 8 9 32 = Except.error msg) ∧
    (∃ m', (Mem.zeroValue 2).setLight 1 7 8 9 31 = Except.ok m') :=
  ⟨by decide, (setLight_fatal_iff (Mem.zeroValue 2) 1 7 8 9 0).2 (by decide)⟩

/-- C3.  `maybeSetLight` returns without failing and leaves the buffer unchanged for every
index `n < 0` or `n ≥ N` (in particular `n = -1` and `n = N`) and every `r`, `g`, `b`, `a`;
for every `n` in `[0,N)` it has exactly the result of `setLight(n,r,g,b,a)`, failure
included. -/
theorem maybeSetLight_spec {N : Nat} (m : Mem N) (n : Int) (r g b a : Nat) :
    ((n < 0 ∨ n ≥ (N : Int)) → m.maybeSetLight n r g b a = Except.ok m) ∧
    ((0 ≤ n ∧ n < (N : Int)) → m.maybeSetLight n r g b a = m.setLight n r g b a) ∧
    m.maybeSetLight (-1) r g b a = Except.ok m ∧
    m.maybeSetLight (N : Int) r g b a = Except.ok m := by
  refine ⟨fun h => if_pos h, fun h => if_neg (by omega), if_pos (by omega), if_pos (by omega)⟩

/-- Witness for C3: indices 5 (out of range) and 1 (in range) on a two-pixel strip. -/
theorem maybeSetLight_spec_witness :
    (((5 : Int) < 0 ∨ (5 : Int) ≥ ((2 : Nat) : Int)) ∧
      (Mem.zeroValue 2).maybeSetLight 5 7 8 9 40 = Except.ok (Mem.zeroValue 2)) ∧
    ((0 ≤ (1 : Int) ∧ (1 : Int) < ((2 : Nat) : Int)) ∧
      (Mem.zeroValue 2).maybeSetLight 1 7 8 9 40 = (Mem.zeroValue 2).setLight 1 7 8 9 40) :=
  ⟨⟨by decide, (maybeSetLight_spec (Mem.zeroValue 2) 5 7 8 9 40).1 (by decide)⟩,
    ⟨by decide, (maybeSetLight_spec (Mem.zeroValue 2) 1 7 8 9 40).2.1 (by decide)⟩⟩

theorem stopBytesCeil_NumLight : stopBytesCeil NumLight = 13 := by
  have h : ⌈(((NumLight : Nat) : ℚ) / 2) / 8⌉₊ = 12 := by
    rw [Nat.ceil_eq_iff (by decide)]
    simp only [NumLight]
    constructor <;> norm_num
  simp [stopBytesCeil, h]

/-- C4, as stated, fails: for the strip length the program is built with (184) the array
handed to the bus has 752 bytes, not `4 + 4N + (ceil((N/2)/8) + 1) = 753`. -/
theorem frame_length_ceil_fails :
    (Mem.zeroValue NumLight).frame.length = 752 ∧
    (Mem.zeroValue NumLight).frame.length ≠ 4 + 4 * NumLight + stopBytesCeil NumLight := by
  have h : (Mem.zeroValue NumLight).frame.length = 752 := (Mem.zeroValue NumLight).2
  rw [stopBytesCeil_NumLight, h]
  decide

/-- C4, amended.  `send` hands the bus the whole array, whose length is exactly
`4 + 4N + (floor((N/2)/8) + 1)` bytes; for the strip length the program is built with
(`N = NumLight = 184`) that is 752 bytes, of which 12 are trailing stop bytes. -/
theorem send_frame_length {N : Nat} (m : Mem N) (c : Conn) :
    m.send c = c.Tx m.frame ∧
    m.frame.length = 4 + 4 * N + ((N / 2) / 8 + 1) ∧
    stopBytes NumLight = 12 ∧ 4 + 4 * NumLight + stopBytes NumLight = 752 := by
  refine ⟨rfl, ?_, by decide, by decide⟩
  have := m.2
  simp only [Mem.frame, this, memLen_eq]
  omega

/-- C5.  Starting from a zero-valued `Mem`, `init` succeeds and leaves the 4 leading bytes
`0x00` and every trailing stop byte `0xFF`; after every subsequent sequence of `setLight`,
`maybeSetLight` and `zero` calls none of which fails, every leading and trailing framing byte
is what it was after `init`. -/
theorem framing_bytes_invariant (N : Nat) :
    ∃ m₀ : Mem N, (Mem.zeroValue N).init = Except.ok m₀ ∧
      (∀ i, i < 4 → m₀.byte i = 0) ∧
      (∀ i, 4 + 4 * N ≤ i → i < memLen N → m₀.byte i = 0xff) ∧
      ∀ (ops : List MemOp) (m' : Mem N), m₀.applyAll ops = Except.ok m' →
        (∀ i, i < 4 ∨ 4 + 4 * N ≤ i → m'.byte i = m₀.byte i) ∧
        (∀ i, i < 4 → m'.byte i = 0) ∧
        (∀ i, 4 + 4 * N ≤ i → i < memLen N → m'.byte i = 0xff) := by
  obtain ⟨m₀, h₀, hb⟩ := Mem.init_spec (Mem.zeroValue N)
  have lead : ∀ i, i < 4 → m₀.byte i = 0 := by
    intro i hi
    rw [hb i, if_neg (by omega), if_neg (by omega), Mem.byte_zeroValue]
  have trail : ∀ i, 4 + 4 * N ≤ i → i < memLen N → m₀.byte i = 0xff := by
    intro i h₁ h₂
    rw [hb i, if_neg (by omega), if_pos ⟨h₁, h₂⟩]
  refine ⟨m₀, h₀, lead, trail, fun ops m' h => ⟨?_, ?_, ?_⟩⟩
  · exact fun i hi => Mem.applyAll_framing ops m₀ m' h i hi
  · intro i hi
    rw [Mem.applyAll_framing ops m₀ m' h i (Or.inl hi), lead i hi]
  · intro i h₁ h₂
    rw [Mem.applyAll_framing ops m₀ m' h i (Or.inr h₁), trail i h₁ h₂]

/-- C6.  For every prior buffer content, `zero` succeeds and leaves every pixel with wire bytes
`E0 00 00 00` (brightness 0, blue 0, green 0, red 0) and every framing byte as it was; `init`
succeeds and leaves the same pixel contents and every trailing byte `0xFF`. -/
theorem zero_init_pixels {N : Nat} (m : Mem N) :
    (∃ m' : Mem N, m.zero = Except.ok m' ∧
      (∀ n, n < N → m'.wire n = [0xe0 ||| 0, 0, 0, 0]) ∧
      (∀ i, i < 4 ∨ 4 + 4 * N ≤ i → m'.byte i = m.byte i)) ∧
    (∃ m' : Mem N, m.init = Except.ok m' ∧
      (∀ n, n < N → m'.wire n = [0xe0 ||| 0, 0, 0, 0]) ∧
      (∀ i, i < 4 → m'.byte i = m.byte i) ∧
      (∀ i, 4 + 4 * N ≤ i → i < memLen N → m'.byte i = 0xff)) := by
  constructor
  · obtain ⟨m', h, hb⟩ := Mem.zero_spec m
    refine ⟨m', h, fun n hn => ?_, fun i hi => ?_⟩
    · exact Mem.wire_of_zeroed m' n hn (fun i hi => by rw [hb i, if_pos hi])
    · rw [hb i, if_neg (by omega)]
  · obtain ⟨m', h, hb⟩ := Mem.init_spec m
    refine ⟨m', h, fun n hn => ?_, fun i hi => ?_, fun i h₁ h₂ => ?_⟩
    · exact Mem.wire_of_zeroed m' n hn (fun i hi => by rw [hb i, if_pos hi])
    · rw [hb i, if_neg (by omega), if_neg (by omega)]
    · rw [hb i, if_neg (by omega), if_pos ⟨h₁, h₂⟩]

/-- Witness for C5: a two-pixel strip and four calls, one of them on an out-of-range index. -/
theorem framing_bytes_invariant_witness :
    ∃ m₀ m' : Mem 2, (Mem.zeroValue 2).init = Except.ok m₀ ∧
      m₀.applyAll [MemOp.setLight 1 1 2 3 31, MemOp.maybeSetLight 7 1 1 1 99, MemOp.zero,
        MemOp.maybeSetLight 0 9 9 9 5] = Except.ok m' ∧
      (∀ i, i < 4 → m'.byte i = 0) ∧
      (∀ i, 4 + 4 * 2 ≤ i → i < memLen 2 → m'.byte i = 0xff) := by
  obtain ⟨m₀, h₀, _, _, h⟩ := framing_bytes_invariant 2
  have e₀ : (Mem.zeroValue 2).init =
      Except.ok ⟨[0, 0, 0, 0, 224, 0, 0, 0, 224, 0, 0, 0, 255], rfl⟩ := rfl
  rw [e₀] at h₀
  cases h₀
  have e₁ : Mem.applyAll (N := 2) ⟨[0, 0, 0, 0, 224, 0, 0, 0, 224, 0, 0, 0, 255], rfl⟩
      [MemOp.setLight 1 1 2 3 31, MemOp.maybeSetLight 7 1 1 1 99, MemOp.zero,
        MemOp.maybeSetLight 0 9 9 9 5] =
      Except.ok ⟨[0, 0, 0, 0, 229, 9, 9, 9, 224, 0, 0, 0, 255], rfl⟩ := rfl
  exact ⟨_, _, e₀, e₁, (h _ _ e₁).2⟩

/-- C7, as stated, fails at the strip length of the specification's scenario (`N = 8`): the
six untouched pixels are not all-zero blocks. -/
theorem scenario_zero_blocks_fails :
    scenario 8 ≠
      Except.ok (scenarioFrame 8 [0xff, 0, 0, 0xff] [0, 0, 0, 0] [0xea, 0xff, 0, 0]) := by
  intro h
  have e : scenario 8 = Except.ok [0, 0, 0, 0, 255, 0, 0, 255, 224, 0, 0, 0, 224, 0, 0, 0,
      224, 0, 0, 0, 224, 0, 0, 0, 224, 0, 0, 0, 224, 0, 0, 0, 234, 255, 0, 0, 255] := rfl
  rw [e] at h
  injection h with h
  revert h
  decide

/-- C7, amended.  For every strip length `N ≥ 2`: on a fresh buffer, after `init`,
`setLight(0,255,0,0,31)` and `setLight(N-1,0,0,255,10)`, the frame is `00 00 00 00`, then the
pixel-0 bytes `FF 00 00 FF`, then for each of the `N-2` untouched pixels the block
`E0 00 00 00` (brightness 0 under the `0xE0` marker), then the last-pixel bytes `EA FF 00 00`,
then `stopBytes` bytes `FF`. -/
theorem scenario_frame (N : Nat) (hN : 2 ≤ N) :
    scenario N =
      Except.ok (scenarioFrame N [0xff, 0, 0, 0xff] [0xe0, 0, 0, 0] [0xea, 0xff, 0, 0]) := by
  obtain ⟨m₁, h₁, hb⟩ := Mem.init_spec (Mem.zeroValue N)
  have h₂ := Mem.setLight_eq_store4 m₁ 0 255 0 0 31 (by omega) (by omega)
  have h₃ := Mem.setLight_eq_store4 (m₁.store4 (4 + 4 * 0) 255 0 0 31) (N - 1) 0 0 255 10
    (by omega) (by omega)
  have hc : ((N - 1 : Nat) : Int) = (N : Int) - 1 := by omega
  rw [hc] at h₃
  rw [Nat.cast_zero] at h₂
  simp only [scenario, h₁, h₂, h₃, bind, Except.bind, pure, Except.pure]
  congr 1
  apply list_ext_getD
  · have hl := ((m₁.store4 (4 + 4 * 0) 255 0 0 31).store4 (4 + 4 * (N - 1)) 0 0 255 10).2
    simp only [Mem.frame, hl, scenarioFrame, List.length_append, length_blocks,
      List.length_replicate, List.length_cons, List.length_nil, memLen]
    omega
  · intro i _
    have hm : ∀ m : Mem N, m.frame.getD i 0 = m.byte i := fun _ => rfl
    rw [hm, getD_scenarioFrame N i hN,
      Mem.byte_store4 _ _ _ _ _ _ _ (by rw [memLen_eq]; omega),
      Mem.byte_store4 _ _ _ _ _ _ _ (by rw [memLen_eq]; omega), hb i, Mem.byte_zeroValue, memLen_eq]
    by_cases h1 : i < 4
    · repeat (first | rw [if_pos (by omega)] | rw [if_neg (by omega)])
    by_cases h2 : i < 8
    · obtain ⟨j, rfl⟩ : ∃ j, i = 4 + j := ⟨i - 4, by omega⟩
      have hj : j < 4 := by omega
      rw [Nat.add_sub_cancel_left]
      interval_cases j
      all_goals (repeat (first | rw [if_pos (by omega)] | rw [if_neg (by omega)]))
      all_goals rfl
    by_cases h3 : i < 4 + 4 * (N - 1)
    · by_cases h5 : i % 4 = 0
      all_goals (repeat (first | rw [if_pos (by omega)] | rw [if_neg (by omega)]))
    by_cases h4 : i < 4 + 4 * N
    · obtain ⟨j, rfl⟩ : ∃ j, i = 4 + 4 * (N - 1) + j := ⟨i - (4 + 4 * (N - 1)), by omega⟩
      have hj : j < 4 := by omega
      rw [Nat.add_sub_cancel_left]
      interval_cases j
      all_goals (repeat (first | rw [if_pos (by omega)] | rw [if_neg (by omega)]))
      all_goals rfl
    by_cases h6 : i < 4 + N * 4 + (N / 2 / 8 + 1)
    all_goals (repeat (first | rw [if_pos (by omega)] | rw [if_neg (by omega)]))

/-- Witness for C7: the strip length of the specification's scenario, `N = 8`. -/
theorem scenario_frame_witness :
    2 ≤ 8 ∧ scenario 8 = Except.ok [0, 0, 0, 0, 255, 0, 0, 255, 224, 0, 0, 0, 224, 0, 0, 0,
      224, 0, 0, 0, 224, 0, 0, 0, 224, 0, 0, 0, 224, 0, 0, 0, 234, 255, 0, 0, 255] :=
  ⟨by decide, scenario_frame 8 (by decide)⟩

/-! ## Machine integers: wrap-around -/

theorem two_pow_width (w : Nat) (hw : 0 < w) : (2 : Int) ^ w = 2 * 2 ^ (w - 1) := by
  obtain ⟨k, rfl⟩ : ∃ k, w = k + 1 := ⟨w - 1, by omega⟩
  simp only [Nat.add_sub_cancel, pow_succ]
  ring

/-- A result inside the range of `int` is not changed by the wrap-around. -/
theorem wrapInt_of_range (w : Nat) (x : Int) (hw : 0 < w) (hlo : minInt w ≤ x)
    (hhi : x ≤ maxInt w) : wrapInt w x = x := by
  have h2 := two_pow_width w hw
  simp only [minInt, maxInt] at hlo hhi
  simp only [wrapInt, h2]
  rw [Int.emod_eq_of_lt (by omega) (by omega)]
  omega

/-- Every wrapped result is inside the range of `int`. -/
theorem wrapInt_range (w : Nat) (x : Int) (hw : 0 < w) :
    minInt w ≤ wrapInt w x ∧ wrapInt w x ≤ maxInt w := by
  have h2 := two_pow_width w hw
  have hp : (0 : Int) < 2 ^ (w - 1) := by positivity
  have h0 := Int.emod_nonneg (x + 2 ^ (w - 1)) (show (2 : Int) * 2 ^ (w - 1) ≠ 0 by omega)
  have h1 := Int.emod_lt_of_pos (x + 2 ^ (w - 1)) (show (0 : Int) < 2 * 2 ^ (w - 1) by omega)
  simp only [minInt, maxInt, wrapInt, h2]
  omega

/-- One more than the largest `int` is the smallest `int`. -/
theorem wrapInt_max (w : Nat) (hw : 0 < w) : wrapInt w (maxInt w + 1) = minInt w := by
  have h2 := two_pow_width w hw
  have hp : (0 : Int) < 2 ^ (w - 1) := by positivity
  simp only [minInt, maxInt, wrapInt, h2]
  have : (2 : Int) ^ (w - 1) - 1 + 1 + 2 ^ (w - 1) = 2 * 2 ^ (w - 1) := by ring
  rw [this, Int.emod_self]
  omega

/-! ## Segment iteration -/

theorem indices_of_le (low high : Int) (h : low ≤ high) :
    indices low high = low :: indices (low + 1) high := by
  obtain ⟨t, ht⟩ : ∃ t : Nat, (high + 1 - low).toNat = t + 1 := ⟨(high - low).toNat, by omega⟩
  have ht' : (high + 1 - (low + 1)).toNat = t := by omega
  simp only [indices, ht, ht', List.range_succ_eq_map, List.map_cons, List.map_map]
  congr 1
  · simp
  · apply List.map_congr_left
    intro k _
    simp only [Function.comp, Nat.succ_eq_add_one, Nat.cast_add, Nat.cast_one]
    ring

theorem indices_of_gt (low high : Int) (h : high < low) : indices low high = [] := by
  have : (high + 1 - low).toNat = 0 := by omega
  simp [indices, this]

theorem indices_length (low high : Int) : (indices low high).length = (high + 1 - low).toNat := by
  simp [indices]

/-- With enough fuel the loop of `Foreach` is the left-to-right fold of the callback over
`i, i + 1, ..., high`; the result does not depend on the fuel. -/
theorem Line.loop_of_fuel {σ : Type} (high : Int) (fn : Pixel → σ → Except String σ) :
    ∀ (fuel : Nat) (i : Int) (s : σ), (high + 1 - i).toNat ≤ fuel →
      Line.loop high fn fuel i s = (indices i high).foldlM (fun s j => fn ⟨j⟩ s) s := by
  intro fuel
  induction fuel with
  | zero =>
    intro i s h
    rw [indices_of_gt i high (by omega)]
    rfl
  | succ fuel ih =>
    intro i s h
    by_cases hi : i ≤ high
    · rw [indices_of_le i high hi]
      simp only [Line.loop, if_pos hi, List.foldlM, bind, Except.bind]
      cases fn ⟨i⟩ s with
      | error msg => rfl
      | ok s' => exact ih (i + 1) s' (by omega)
    · rw [indices_of_gt i high (by omega)]
      simp only [Line.loop, if_neg hi]
      rfl

theorem Line.Foreach_eq_foldlM {σ : Type} (ln : Line) (fn : Pixel → σ → Except String σ)
    (s : σ) :
    ln.Foreach fn s = (indices ln.Low ln.High).foldlM (fun s j => fn ⟨j⟩ s) s :=
  Line.loop_of_fuel ln.High fn _ ln.Low s (Nat.le_refl _)

theorem foldlM_record (l : List Int) (tr : List Int) :
    l.foldlM (fun (s : List Int) j => (Except.ok (s ++ [j]) : Except String (List Int))) tr =
      Except.ok (tr ++ l) := by
  induction l generalizing tr with
  | nil => simp [List.foldlM, pure, Except.pure]
  | cons a l ih =>
    simp only [List.foldlM, bind, Except.bind]
    rw [ih]
    simp

theorem foldlM_const {σ : Type} (l : List Int) (fn : Pixel → σ → Except String σ) (s : σ)
    (h : ∀ j, fn ⟨j⟩ s = Except.ok s) :
    l.foldlM (fun s j => fn ⟨j⟩ s) s = Except.ok s := by
  induction l with
  | nil => rfl
  | cons a l ih =>
    simp only [List.foldlM, bind, Except.bind, h a]
    exact ih

/-- On a machine whose `int` has `w` bits, for a line that starts at an `int` and ends below
the largest `int`, the loop of `Foreach` returns once it has enough fuel, and its result is
the left-to-right fold of the callback over `i, i + 1, ..., high`. -/
theorem Line.loopW_of_fuel {σ : Type} (w : Nat) (hw : 0 < w) (high : Int)
    (hhigh : high < maxInt w) (fn : Pixel → σ → Except String σ) :
    ∀ (fuel : Nat) (i : Int) (s : σ), minInt w ≤ i → (high + 1 - i).toNat < fuel →
      Line.loopW w high fn fuel i s =
        some ((indices i high).foldlM (fun s j => fn ⟨j⟩ s) s) := by
  intro fuel
  induction fuel with
  | zero =>
    intro i s _ h
    omega
  | succ fuel ih =>
    intro i s hi h
    by_cases hle : i ≤ high
    · rw [indices_of_le i high hle]
      simp only [Line.loopW, if_pos hle, List.foldlM, bind, Except.bind]
      cases fn ⟨i⟩ s with
      | error msg => rfl
      | ok s' =>
        have hwr : wrapInt w (i + 1) = i + 1 :=
          wrapInt_of_range w (i + 1) hw (by omega) (by omega)
        simp only [hwr]
        exact ih (i + 1) s' (by omega) (by omega)
    · rw [indices_of_gt i high (by omega)]
      simp only [Line.loopW, if_neg hle]
      rfl

/-- Below the largest `int` the method on the machine is the method on exact integers. -/
theorem Line.ForeachW_eq_Foreach {σ : Type} (w fuel : Nat) (ln : Line)
    (fn : Pixel → σ → Except String σ) (s : σ) (hw : 0 < w) (hlo : minInt w ≤ ln.Low)
    (hhi : ln.High < maxInt w) (hfuel : (ln.High + 1 - ln.Low).toNat < fuel) :
    ln.ForeachW w fuel fn s = some (ln.Foreach fn s) := by
  rw [Line.Foreach_eq_foldlM]
  exact Line.loopW_of_fuel w hw ln.High hhi fn fuel ln.Low s hlo hfuel

/-- When `High` is the largest `int` the test `i <= ln.High` holds for every `int`: the loop
does not end unless the callback panics. -/
theorem Line.loopW_at_maxInt {σ : Type} (w : Nat) (hw : 0 < w)
    (fn : Pixel → σ → Except String σ) (hfn : ∀ p s, ∃ s', fn p s = Except.ok s') :
    ∀ (fuel : Nat) (i : Int) (s : σ), i ≤ maxInt w →
      Line.loopW w (maxInt w) fn fuel i s = none := by
  intro fuel
  induction fuel with
  | zero =>
    intro i s _
    rfl
  | succ fuel ih =>
    intro i s hi
    obtain ⟨s', hs'⟩ := hfn ⟨i⟩ s
    simp only [Line.loopW, if_pos hi, hs']
    exact ih _ s' (wrapInt_range w (i + 1) hw).2

/-- C8, as stated, fails for a line that ends at the largest `int`.  On the 32-bit target the
line `2147483646 .. 2147483647` has two indices, but `i++` wraps from `2147483647` to
`-2147483648` and the test `i <= ln.High` still holds: `Foreach` never returns, whatever the
number of iterations allowed, and its third call of `fn` is at index `-2147483648`, which is
not an index of the line.  The same happens with 64 bits at the line
`9223372036854775806 .. 9223372036854775807`. -/
theorem Foreach_at_largest_int_fails :
    indices 2147483646 2147483647 = [2147483646, 2147483647] ∧
    (∀ fuel : Nat, (Line.mk 2147483646 2147483647 CardDir.North).ForeachW 32 fuel
      (fun _ (u : Unit) => Except.ok u) () = none) ∧
    (Line.mk 2147483646 2147483647 CardDir.North).ForeachW 32 3
      (fun p (u : Unit) =>
        if p.N = -2147483648 then Except.error "fn called" else Except.ok u) () =
      some (Except.error "fn called") ∧
    (∀ fuel : Nat, (Line.mk 9223372036854775806 9223372036854775807 CardDir.North).ForeachW 64
      fuel (fun _ (u : Unit) => Except.ok u) () = none) ∧
    (Line.mk 9223372036854775806 9223372036854775807 CardDir.North).ForeachW 64 3
      (fun p (u : Unit) =>
        if p.N = -9223372036854775808 then Except.error "fn called" else Except.ok u) () =
      some (Except.error "fn called") := by
  refine ⟨by decide, fun fuel => ?_, rfl, fun fuel => ?_, rfl⟩
  · exact Line.loopW_at_maxInt 32 (by decide) _ (fun _ u => ⟨u, rfl⟩) fuel 2147483646 ()
      (by decide)
  · exact Line.loopW_at_maxInt 64 (by decide) _ (fun _ u => ⟨u, rfl⟩) fuel
      9223372036854775806 () (by decide)

/-- C8, amended.  On a machine whose `int` has `w` bits, for every `Line` that starts at an
`int` and ends below the largest `int`, and every callback `fn`: `Foreach` returns (any number
of iterations above `High-Low+1` is enough for the loop to end), and its result is the
left-to-right composition of `fn` over the indices `Low, Low+1, ..., High` in ascending order,
each index once and no other index: `High-Low+1` calls when `Low ≤ High`, none when
`Low > High`.  The state reaches the result through `fn` only: a callback that records its
argument records exactly that list, and a callback that leaves the state alone makes `Foreach`
leave it alone.  The loop on exact integers, which the animations are stated with, gives the
same result. -/
theorem Foreach_spec {σ : Type} (w : Nat) (ln : Line) (fn : Pixel → σ → Except String σ)
    (s : σ) (hw : 0 < w) (hlo : minInt w ≤ ln.Low) (hhi : ln.High < maxInt w) :
    (∀ fuel, (ln.High + 1 - ln.Low).toNat < fuel →
      ln.ForeachW w fuel fn s =
        some ((indices ln.Low ln.High).foldlM (fun s j => fn ⟨j⟩ s) s)) ∧
    ln.Foreach fn s = (indices ln.Low ln.High).foldlM (fun s j => fn ⟨j⟩ s) s ∧
    (∀ fuel, (ln.High + 1 - ln.Low).toNat < fuel →
      ln.ForeachW w fuel (fun p tr => Except.ok (tr ++ [p.N])) [] =
        some (Except.ok (indices ln.Low ln.High))) ∧
    (∀ k : Nat, k < (indices ln.Low ln.High).length →
      (indices ln.Low ln.High).getD k 0 = ln.Low + (k : Int)) ∧
    (ln.Low ≤ ln.High → ((indices ln.Low ln.High).length : Int) = ln.High - ln.Low + 1) ∧
    (ln.Low > ln.High → indices ln.Low ln.High = []) ∧
    ((∀ j, fn ⟨j⟩ s = Except.ok s) →
      ∀ fuel, (ln.High + 1 - ln.Low).toNat < fuel →
        ln.ForeachW w fuel fn s = some (Except.ok s)) := by
  refine ⟨fun fuel h => Line.loopW_of_fuel w hw ln.High hhi fn fuel ln.Low s hlo h,
    Line.Foreach_eq_foldlM ln fn s, ?_, ?_, ?_, ?_, ?_⟩
  · intro fuel h
    rw [Line.ForeachW, Line.loopW_of_fuel w hw ln.High hhi _ fuel ln.Low [] hlo h]
    exact congrArg some (foldlM_record _ [])
  · intro k hk
    rw [indices_length] at hk
    simp [indices, List.getD_eq_getElem?_getD, List.getElem?_map, List.getElem?_range hk]
  · intro h
    rw [indices_length]
    omega
  · intro h
    exact indices_of_gt _ _ h
  · intro h fuel hf
    rw [Line.ForeachW, Line.loopW_of_fuel w hw ln.High hhi fn fuel ln.Low s hlo hf]
    exact congrArg some (foldlM_const _ fn s h)

/-- Witness for C8, on the 32-bit target: the line 3..5 visits 3, 4, 5 and returns; the line
5..3 visits nothing. -/
theorem Foreach_spec_witness :
    (0 < 32 ∧ minInt 32 ≤ 3 ∧ (5 : Int) < maxInt 32) ∧
    (Line.mk 3 5 CardDir.North).ForeachW 32 4 (fun p tr => Except.ok (tr ++ [p.N])) [] =
      some (Except.ok [3, 4, 5] : Except String (List Int)) ∧
    ((3 : Int) ≤ 5 ∧ ((indices 3 5).length : Int) = 5 - 3 + 1) ∧
    ((5 : Int) > 3 ∧ indices 5 3 = []) :=
  ⟨⟨by decide, by decide, by decide⟩,
    (Foreach_spec 32 (Line.mk 3 5 CardDir.North)
      (fun p (tr : List Int) => Except.ok (tr ++ [p.N])) [] (by decide) (by decide)
      (by decide)).2.2.1 4 (by decide),
    ⟨by decide, (Foreach_spec (σ := Unit) 32 (Line.mk 3 5 CardDir.North)
      (fun _ u => Except.ok u) () (by decide) (by decide) (by decide)).2.2.2.2.1 (by decide)⟩,
    ⟨by decide, (Foreach_spec (σ := Unit) 32 (Line.mk 5 3 CardDir.North)
      (fun _ u => Except.ok u) () (by decide) (by decide) (by decide)).2.2.2.2.2.1
      (by decide)⟩⟩

/-! ## The animation `off` and the render cycle -/

theorem indices_All (N : Nat) :
    indices (All N).Low (All N).High = (List.range N).map (fun (k : Nat) => (0 : Int) + (k : Int)) := by
  have : ((N : Int) - 1 + 1 - 0).toNat = N := by omega
  simp only [indices, All, this]

/-- Zeroing through the environment is `Mem.zero` on the embedded buffer. -/
theorem foldlM_setLight_env {N : Nat} (l : List Nat) (e : PaintEnv N) :
    (l.map (fun (k : Nat) => (0 : Int) + (k : Int))).foldlM
        (fun (e : PaintEnv N) j => e.setLight j 0 0 0 0) e =
      match l.foldlM (fun (acc : Mem N) (i : Nat) => acc.setLight (i : Int) 0 0 0 0) e.Mem with
      | Except.ok m => Except.ok { e with Mem := m }
      | Except.error msg => Except.error msg := by
  induction l generalizing e with
  | nil => rfl
  | cons a l ih =>
    simp only [List.map_cons, List.foldlM, bind, Except.bind, zero_add]
    cases h : e.Mem.setLight (a : Int) 0 0 0 0 with
    | error msg =>
      have he : e.setLight (a : Int) 0 0 0 0 = Except.error msg := by
        simp only [PaintEnv.setLight, h]
      rw [he]
    | ok m =>
      have he : e.setLight (a : Int) 0 0 0 0 = Except.ok { e with Mem := m } := by
        simp only [PaintEnv.setLight, h]
      rw [he]
      have := ih { e with Mem := m }
      simp only [zero_add] at this
      exact this

theorem off.Paint_eq {N : Nat} (e : PaintEnv N) (m : Mem N) (h : e.Mem.zero = Except.ok m) :
    off.Paint e = Except.ok { Mem := m, Cycle := e.Cycle, nextSleep := 200 * Millisecond } := by
  unfold Mem.zero at h
  simp only [off.Paint, Line.Foreach_eq_foldlM, indices_All, foldlM_setLight_env, h]
  rfl

theorem foldlM_call_setLight {N : Nat} (l : List Nat) (e : PaintEnv N) :
    (l.map (fun (i : Nat) => EnvCall.setLight (i : Int) 0 0 0 0)).foldlM PaintEnv.call e =
      match l.foldlM (fun (acc : Mem N) (i : Nat) => acc.setLight (i : Int) 0 0 0 0) e.Mem with
      | Except.ok m => Except.ok { e with Mem := m }
      | Except.error msg => Except.error msg := by
  induction l generalizing e with
  | nil => rfl
  | cons a l ih =>
    simp only [List.map_cons, List.foldlM, bind, Except.bind]
    cases h : e.Mem.setLight (a : Int) 0 0 0 0 with
    | error msg =>
      have he : e.call (EnvCall.setLight (a : Int) 0 0 0 0) = Except.error msg := by
        simp only [PaintEnv.call, PaintEnv.setLight, h]
      rw [he]
    | ok m =>
      have he : e.call (EnvCall.setLight (a : Int) 0 0 0 0) = Except.ok { e with Mem := m } := by
        simp only [PaintEnv.call, PaintEnv.setLight, h]
      rw [he]
      exact ih { e with Mem := m }

/-- The animation `off` acts on the environment through the calls `off.calls`. -/
theorem off.Paint_eq_calls {N : Nat} (e : PaintEnv N) : off.Paint e = e.calls (off.calls N) := by
  obtain ⟨m, h, _⟩ := Mem.zero_spec e.Mem
  rw [off.Paint_eq e m h]
  unfold Mem.zero at h
  simp only [PaintEnv.calls, off.calls, List.foldlM_append, foldlM_call_setLight, h, bind,
    Except.bind]
  rfl

/-- C9.  For every environment, whatever the buffer holds and whatever the frame counter is,
`off.Paint` succeeds, and afterwards every pixel in `[0,N)` has wire bytes `E0 00 00 00`
(brightness 0, blue 0, green 0, red 0) and every framing byte is what it was. -/
theorem off_Paint_spec {N : Nat} (e : PaintEnv N) :
    ∃ e' : PaintEnv N, off.Paint e = Except.ok e' ∧
      (∀ n, n < N → e'.Mem.wire n = [0xe0 ||| 0, 0, 0, 0]) ∧
      (∀ i, i < 4 ∨ 4 + 4 * N ≤ i → e'.Mem.byte i = e.Mem.byte i) ∧
      e'.Cycle = e.Cycle := by
  obtain ⟨m, h, hb⟩ := Mem.zero_spec e.Mem
  refine ⟨_, off.Paint_eq e m h, fun n hn => ?_, fun i hi => ?_, rfl⟩
  · exact Mem.wire_of_zeroed m n hn (fun i hi => by rw [hb i, if_pos hi])
  · show m.byte i = e.Mem.byte i
    rw [hb i, if_neg (by omega)]

/-- A sequence of calls that returns leaves `Cycle` alone and leaves in `nextSleep` the
duration of its last `Sleep`, or the old value. -/
theorem PaintEnv.calls_ok {N : Nat} (cs : List EnvCall) (e e' : PaintEnv N)
    (h : e.calls cs = Except.ok e') :
    e'.Cycle = e.Cycle ∧
    e'.nextSleep = cs.foldl sleepStep e.nextSleep := by
  induction cs generalizing e with
  | nil =>
    cases h
    exact ⟨rfl, rfl⟩
  | cons c cs ih =>
    simp only [PaintEnv.calls, List.foldlM, bind, Except.bind] at h
    cases h₁ : e.call c with
    | error msg =>
      rw [h₁] at h
      cases h
    | ok e₁ =>
      rw [h₁] at h
      obtain ⟨hc, hs⟩ := ih e₁ h
      have key : e₁.Cycle = e.Cycle ∧ e₁.nextSleep = sleepStep e.nextSleep c := by
        cases c with
        | setLight n r g b a =>
          simp only [PaintEnv.call, PaintEnv.setLight] at h₁
          cases h₂ : e.Mem.setLight n r g b a with
          | error msg =>
            rw [h₂] at h₁
            cases h₁
          | ok m =>
            rw [h₂] at h₁
            cases h₁
            exact ⟨rfl, rfl⟩
        | maybeSetLight n r g b a =>
          simp only [PaintEnv.call, PaintEnv.maybeSetLight] at h₁
          cases h₂ : e.Mem.maybeSetLight n r g b a with
          | error msg =>
            rw [h₂] at h₁
            cases h₁
          | ok m =>
            rw [h₂] at h₁
            cases h₁
            exact ⟨rfl, rfl⟩
        | Sleep d =>
          simp only [PaintEnv.call] at h₁
          cases h₁
          exact ⟨rfl, rfl⟩
      rw [hc, hs, key.1, key.2]
      exact ⟨rfl, rfl⟩

/-! ## Pixel writes through the environment -/

theorem PaintEnv.setLight_ok {N : Nat} (e : PaintEnv N) (n r g b a : Nat)
    (hn : n < N) (ha : a ≤ 31) :
    e.setLight (n : Int) r g b a =
      Except.ok { e with Mem := e.Mem.store4 (4 + 4 * n) r g b a } := by
  simp only [PaintEnv.setLight, Mem.setLight_eq_store4 e.Mem n r g b a hn ha]

theorem PaintEnv.setLight_too_big {N : Nat} (e : PaintEnv N) (n : Int) (r g b a : Nat)
    (hn : (N : Int) ≤ n) (ha : a ≤ 31) :
    e.setLight n r g b a = Except.error "n too big" := by
  have h1 : ¬ a > maxBright := by simp [maxBright]; omega
  simp only [PaintEnv.setLight, Mem.setLight, h1, if_false, ge_iff_le, hn, if_true]

theorem mem_indices (low high j : Int) : j ∈ indices low high ↔ low ≤ j ∧ j ≤ high := by
  simp only [indices, List.mem_map, List.mem_range]
  constructor
  · rintro ⟨k, hk, rfl⟩
    omega
  · intro h
    exact ⟨(j - low).toNat, by omega, by omega⟩

/-- A fold of `setLight` with a fixed colour over in-range indices returns. -/
theorem foldlM_setLight_ok {N : Nat} (l : List Int) (r g b a : Nat) (ha : a ≤ 31)
    (hl : ∀ j ∈ l, 0 ≤ j ∧ j < (N : Int)) (e : PaintEnv N) :
    ∃ e' : PaintEnv N, l.foldlM (fun (e : PaintEnv N) j => e.setLight j r g b a) e =
      Except.ok e' := by
  induction l generalizing e with
  | nil => exact ⟨e, rfl⟩
  | cons j l ih =>
    obtain ⟨h0, hN⟩ := hl j (List.mem_cons_self j l)
    obtain ⟨k, rfl⟩ : ∃ k : Nat, j = (k : Int) := ⟨j.toNat, by omega⟩
    simp only [List.foldlM, bind, Except.bind,
      PaintEnv.setLight_ok e k r g b a (by omega) ha]
    exact ih (fun j hj => hl j (List.mem_cons_of_mem _ hj)) _

/-- A fold of `setLight` with a fixed colour over `lo, lo + 1, ..., hi` panics with
`n too big` when `0 ≤ lo ≤ N ≤ hi`. -/
theorem foldlM_setLight_too_big {N : Nat} (r g b a : Nat) (ha : a ≤ 31) (hi : Int)
    (hhi : (N : Int) ≤ hi) :
    ∀ (k : Nat) (lo : Int) (e : PaintEnv N), ((N : Int) - lo).toNat = k → 0 ≤ lo →
      lo ≤ (N : Int) →
      (indices lo hi).foldlM (fun (e : PaintEnv N) j => e.setLight j r g b a) e =
        Except.error "n too big" := by
  intro k
  induction k with
  | zero =>
    intro lo e hk h0 hN
    rw [indices_of_le lo hi (by omega)]
    simp only [List.foldlM, bind, Except.bind,
      PaintEnv.setLight_too_big e lo r g b a (by omega) ha]
  | succ k ih =>
    intro lo e hk h0 hN
    rw [indices_of_le lo hi (by omega)]
    obtain ⟨t, rfl⟩ : ∃ t : Nat, lo = (t : Int) := ⟨lo.toNat, by omega⟩
    simp only [List.foldlM, bind, Except.bind,
      PaintEnv.setLight_ok e t r g b a (by omega) ha]
    exact ih _ _ (by omega) (by omega) (by omega)

theorem Foreach_set_ok {N : Nat} (ln : Line) (r g b a : Nat) (ha : a ≤ 31)
    (h0 : 0 ≤ ln.Low) (hN : ln.High < (N : Int)) (e : PaintEnv N) :
    ∃ e' : PaintEnv N, ln.Foreach (fun p e => p.set e r g b a) e = Except.ok e' := by
  rw [Line.Foreach_eq_foldlM]
  exact foldlM_setLight_ok _ r g b a ha (fun j hj => by
    rw [mem_indices] at hj
    omega) e

theorem Foreach_set_too_big {N : Nat} (ln : Line) (r g b a : Nat) (ha : a ≤ 31)
    (h0 : 0 ≤ ln.Low) (hlo : ln.Low ≤ (N : Int)) (hN : (N : Int) ≤ ln.High) (e : PaintEnv N) :
    ln.Foreach (fun p e => p.set e r g b a) e = Except.error "n too big" := by
  rw [Line.Foreach_eq_foldlM]
  exact foldlM_setLight_too_big r g b a ha ln.High hN _ ln.Low e rfl h0 hlo

/-! ## The animation `seahawks` -/

/-- C16, the code at the strip length the program is built with: for every environment
`seahawks.Paint` panics with `n too big`.  The first two segments are painted; the third,
`G3 = 168..212`, reaches pixel 184 = `NumLight`.  `Sleep` is never reached. -/
theorem seahawks_Paint_fails (e : PaintEnv NumLight) :
    seahawks.Paint e = Except.error "n too big" := by
  obtain ⟨e₁, h₁⟩ := Foreach_set_ok (N := NumLight) G1 0 0 30 20 (by decide) (by decide)
    (by decide) e
  obtain ⟨e₂, h₂⟩ := Foreach_set_ok (N := NumLight) G2 0 167 1 10 (by decide) (by decide)
    (by decide) e₁
  have h₃ := Foreach_set_too_big (N := NumLight) G3 0 0 30 20 (by decide) (by decide)
    (by decide) (by decide) e₂
  have c0 : seahawks.colour 0 = (0, 0, 30, 20) := rfl
  have c1 : seahawks.colour 1 = (0, 167, 1, 10) := rfl
  have c2 : seahawks.colour 2 = (0, 0, 30, 20) := rfl
  simp only [seahawks.Paint, segs, seahawks.loop, c0, c1, c2, Nat.zero_add, Nat.reduceAdd,
    h₁, h₂, h₃]

/-! ## Painting every pixel of the strip -/

theorem wireByte_at (col : Nat → Nat × Nat × Nat × Nat) (n : Nat) :
    wireByte col (4 + 4 * n) = (0xe0 + (col n).2.2.2) % 256 ∧
    wireByte col (4 + 4 * n + 1) = (col n).2.2.1 ∧
    wireByte col (4 + 4 * n + 2) = (col n).2.1 ∧
    wireByte col (4 + 4 * n + 3) = (col n).1 := by
  have d0 : (4 + 4 * n - 4) / 4 = n := by omega
  have d1 : (4 + 4 * n + 1 - 4) / 4 = n := by omega
  have d2 : (4 + 4 * n + 2 - 4) / 4 = n := by omega
  have d3 : (4 + 4 * n + 3 - 4) / 4 = n := by omega
  have m0 : (4 + 4 * n - 4) % 4 = 0 := by omega
  have m1 : (4 + 4 * n + 1 - 4) % 4 = 1 := by omega
  have m2 : (4 + 4 * n + 2 - 4) % 4 = 2 := by omega
  have m3 : (4 + 4 * n + 3 - 4) % 4 = 3 := by omega
  simp only [wireByte, d0, d1, d2, d3, m0, m1, m2, m3, and_self]

/-- The state after the first `k` calls of a callback that, on pixel `n`, is
`setLight(n, col n)`. -/
theorem paint_loop {N : Nat} (fn : Pixel → PaintEnv N → Except String (PaintEnv N))
    (col : Nat → Nat × Nat × Nat × Nat) (e : PaintEnv N)
    (ha : ∀ n, n < N → (col n).2.2.2 ≤ 31)
    (hfn : ∀ (n : Nat) (e₁ : PaintEnv N), n < N → e₁.Cycle = e.Cycle →
      fn ⟨(n : Int)⟩ e₁ = e₁.setLight (n : Int) (col n).1 (col n).2.1 (col n).2.2.1 (col n).2.2.2)
    (k : Nat) (hk : k ≤ N) :
    ∃ m' : Mem N,
      ((List.range k).map (fun (j : Nat) => (0 : Int) + (j : Int))).foldlM
          (fun e j => fn ⟨j⟩ e) e = Except.ok { e with Mem := m' } ∧
      ∀ i, m'.byte i = if 4 ≤ i ∧ i < 4 + 4 * k then wireByte col i else e.Mem.byte i := by
  induction k with
  | zero => exact ⟨e.Mem, rfl, fun i => by rw [if_neg (by omega)]⟩
  | succ k ih =>
    obtain ⟨m₁, h₁, hb⟩ := ih (by omega)
    refine ⟨m₁.store4 (4 + 4 * k) (col k).1 (col k).2.1 (col k).2.2.1 (col k).2.2.2, ?_, ?_⟩
    · rw [List.range_succ, List.map_append, List.foldlM_append, h₁]
      simp only [List.map_cons, List.map_nil, List.foldlM, bind, Except.bind, pure,
        Except.pure, zero_add]
      rw [hfn k { e with Mem := m₁ } (by omega) rfl,
        PaintEnv.setLight_ok _ k _ _ _ _ (by omega) (ha k (by omega))]
    · intro i
      obtain ⟨w0, w1, w2, w3⟩ := wireByte_at col k
      rw [Mem.byte_store4 m₁ _ _ _ _ _ i (by rw [memLen_eq]; omega), hb i]
      by_cases h0 : i = 4 + 4 * k
      · rw [if_pos h0, if_pos (by omega), h0, w0]
      rw [if_neg h0]
      by_cases h1 : i = 4 + 4 * k + 1
      · rw [if_pos h1, if_pos (by omega), h1, w1]
      rw [if_neg h1]
      by_cases h2 : i = 4 + 4 * k + 2
      · rw [if_pos h2, if_pos (by omega), h2, w2]
      rw [if_neg h2]
      by_cases h3 : i = 4 + 4 * k + 3
      · rw [if_pos h3, if_pos (by omega), h3, w3]
      rw [if_neg h3]
      by_cases h4 : 4 ≤ i ∧ i < 4 + 4 * k
      · rw [if_pos h4, if_pos (by omega)]
      · rw [if_neg h4, if_neg (by omega)]

/-- A `Foreach` over `All` whose callback, on pixel `n`, is `setLight(n, col n)` with
brightness at most 31 returns; afterwards pixel `n` holds `0xE0|a, b, g, r` for
`col n = (r, g, b, a)`, and the framing bytes, `Cycle` and `nextSleep` are what they were. -/
theorem Foreach_All_paint {N : Nat} (fn : Pixel → PaintEnv N → Except String (PaintEnv N))
    (col : Nat → Nat × Nat × Nat × Nat) (e : PaintEnv N)
    (ha : ∀ n, n < N → (col n).2.2.2 ≤ 31)
    (hfn : ∀ (n : Nat) (e₁ : PaintEnv N), n < N → e₁.Cycle = e.Cycle →
      fn ⟨(n : Int)⟩ e₁ =
        e₁.setLight (n : Int) (col n).1 (col n).2.1 (col n).2.2.1 (col n).2.2.2) :
    ∃ m' : Mem N, (All N).Foreach fn e = Except.ok { e with Mem := m' } ∧
      (∀ n, n < N → m'.wire n =
        [0xe0 ||| (col n).2.2.2, (col n).2.2.1, (col n).2.1, (col n).1]) ∧
      (∀ i, i < 4 ∨ 4 + 4 * N ≤ i → m'.byte i = e.Mem.byte i) := by
  obtain ⟨m', h, hb⟩ := paint_loop fn col e ha hfn N (Nat.le_refl N)
  refine ⟨m', ?_, fun n hn => ?_, fun i hi => ?_⟩
  · rw [Line.Foreach_eq_foldlM, indices_All]
    exact h
  · obtain ⟨w0, w1, w2, w3⟩ := wireByte_at col n
    simp only [Mem.wire]
    rw [hb, hb, hb, hb, if_pos (by omega), if_pos (by omega), if_pos (by omega),
      if_pos (by omega), w0, w1, w2, w3, bright_or _ (ha n hn)]
  · rw [hb i, if_neg (by omega)]

theorem seahawks.colour_bright (i : Nat) : (seahawks.colour i).2.2.2 ≤ 31 := by
  have h : i % 2 = 0 ∨ i % 2 = 1 := by omega
  rcases h with h | h
  · simp only [seahawks.colour, h]
    decide
  · simp only [seahawks.colour, h]
    decide

theorem segs_bounds : ∀ seg ∈ segs, 0 ≤ seg.Low ∧ seg.High ≤ 748 := by
  decide

theorem seahawks.loop_ok {N : Nat} (hN : 749 ≤ N) (sg : List Line)
    (hsg : ∀ seg ∈ sg, 0 ≤ seg.Low ∧ seg.High ≤ 748) :
    ∀ (i : Nat) (e : PaintEnv N), ∃ e' : PaintEnv N, seahawks.loop sg i e = Except.ok e' := by
  induction sg with
  | nil => exact fun _ e => ⟨e, rfl⟩
  | cons seg sg ih =>
    intro i e
    obtain ⟨h0, h748⟩ := hsg seg (List.mem_cons_self seg sg)
    obtain ⟨e₁, h₁⟩ := Foreach_set_ok (N := N) seg (seahawks.colour i).1
      (seahawks.colour i).2.1 (seahawks.colour i).2.2.1 (seahawks.colour i).2.2.2
      (seahawks.colour_bright i) h0 (by omega) e
    obtain ⟨e₂, h₂⟩ := ih (fun s hs => hsg s (List.mem_cons_of_mem seg hs)) (i + 1) e₁
    exact ⟨e₂, by simp only [seahawks.loop, h₁, h₂]⟩

/-- On a strip of at least 749 lights, the length the segment table was written for,
`seahawks.Paint` returns and asks for a delay of 300 ms. -/
theorem seahawks.Paint_ok_of_long_strip {N : Nat} (hN : 749 ≤ N) (e : PaintEnv N) :
    ∃ e' : PaintEnv N, seahawks.Paint e = Except.ok e' ∧ e'.nextSleep = 300 * Millisecond := by
  obtain ⟨e₁, h₁⟩ := seahawks.loop_ok hN segs segs_bounds 0 e
  exact ⟨e₁.Sleep (300 * Millisecond), by simp only [seahawks.Paint, h₁], rfl⟩

/-! ## The animation `snakeRedGreen` -/

theorem tmod_cases (x : Int) (n : Nat) :
    x.tmod n = if 0 ≤ x then x % n else -((-x) % n) := by
  cases x with
  | ofNat m => simp [Int.tmod]
  | negSucc m =>
    have h : ¬ (0 : Int) ≤ Int.negSucc m := Int.negSucc_not_nonneg m |>.mp
    rw [if_neg h]
    simp [Int.tmod]
    rfl

theorem tdiv_cases (x : Int) (n : Nat) :
    x.tdiv n = if 0 ≤ x then x / n else -((-x) / n) := by
  cases x with
  | ofNat m => simp [Int.tdiv]
  | negSucc m =>
    have h : ¬ (0 : Int) ≤ Int.negSucc m := Int.negSucc_not_nonneg m |>.mp
    rw [if_neg h]
    simp [Int.tdiv]
    rfl

theorem snakeRedGreen.pos_cases (n c : Int) :
    snakeRedGreen.pos n c = 0 ∨ snakeRedGreen.pos n c = 1 := by
  have h := tmod_cases ((n - c).tdiv 25) 2
  simp only [Nat.cast_ofNat] at h
  simp only [snakeRedGreen.pos]
  split_ifs at h ⊢ <;> omega

theorem snakeRedGreen.a_range (n c : Int) :
    0 ≤ snakeRedGreen.a n c ∧ snakeRedGreen.a n c ≤ 24 ∧
    snakeRedGreen.a n c = ((n - c).tmod 25).natAbs := by
  have h := tmod_cases (n - c) 25
  simp only [Nat.cast_ofNat] at h
  simp only [snakeRedGreen.a]
  split_ifs at h ⊢ <;> omega

theorem snakeRedGreen.bright_range (n c : Int) :
    (6 + byteOf (snakeRedGreen.a n c)) % 256 = 6 + ((n - c).tmod 25).natAbs ∧
    6 ≤ (6 + byteOf (snakeRedGreen.a n c)) % 256 ∧
    (6 + byteOf (snakeRedGreen.a n c)) % 256 ≤ 30 := by
  obtain ⟨h0, h24, habs⟩ := snakeRedGreen.a_range n c
  have hb : byteOf (snakeRedGreen.a n c) = ((n - c).tmod 25).natAbs := by
    simp only [byteOf]
    omega
  rw [hb]
  omega

theorem snakeRedGreen.fn_eq {N : Nat} (n : Nat) (e : PaintEnv N) :
    snakeRedGreen.fn ⟨(n : Int)⟩ e =
      e.setLight (n : Int) (snakeRedGreen.colour e.Cycle n).1
        (snakeRedGreen.colour e.Cycle n).2.1 (snakeRedGreen.colour e.Cycle n).2.2.1
        (snakeRedGreen.colour e.Cycle n).2.2.2 := by
  simp only [snakeRedGreen.fn, snakeRedGreen.colour, Pixel.set]
  rcases snakeRedGreen.pos_cases n e.Cycle with h | h
  · simp only [h, if_true]
  · have h' : ¬ ((1 : Int) = 0) := by decide
    simp only [h, h', if_false, if_true]

/-- The whole effect of `snakeRedGreen.Paint`. -/
theorem snakeRedGreen.Paint_result {N : Nat} (e : PaintEnv N) :
    ∃ m' : Mem N, snakeRedGreen.Paint e = Except.ok { e with Mem := m' } ∧
      (∀ n, n < N → m'.wire n =
        [0xe0 ||| (snakeRedGreen.colour e.Cycle n).2.2.2,
          (snakeRedGreen.colour e.Cycle n).2.2.1, (snakeRedGreen.colour e.Cycle n).2.1,
          (snakeRedGreen.colour e.Cycle n).1]) ∧
      (∀ i, i < 4 ∨ 4 + 4 * N ≤ i → m'.byte i = e.Mem.byte i) := by
  apply Foreach_All_paint snakeRedGreen.fn (snakeRedGreen.colour e.Cycle) e
  · intro n _
    have := (snakeRedGreen.bright_range n e.Cycle).2.2
    simp only [snakeRedGreen.colour]
    split_ifs
    · exact Nat.le_trans this (by decide)
    · exact Nat.le_trans this (by decide)
  · intro n e₁ _ hc
    rw [snakeRedGreen.fn_eq, hc]

/-- C17, as stated, fails: at frame counter 1 pixel 0 has `n - c = -1`, so
`floor((n - c)/25) mod 2` is 1 (green), while the code computes class 0 and paints pixel 0
pure red (`b, g, r = 0, 0, 255`). -/
theorem snakeRedGreen_floor_class_fails :
    floorClass 0 1 = 1 ∧
    ∃ e' : PaintEnv NumLight,
      snakeRedGreen.Paint ⟨Mem.zeroValue NumLight, 1, 0⟩ = Except.ok e' ∧
      e'.Mem.wire 0 = [0xe0 ||| 7, 0, 0, 255] := by
  refine ⟨by decide, ?_⟩
  obtain ⟨m', h, hw, _⟩ := snakeRedGreen.Paint_result (N := NumLight) ⟨Mem.zeroValue NumLight, 1, 0⟩
  refine ⟨_, h, ?_⟩
  rw [hw 0 (by decide)]
  decide

/-- C17, amended.  On a machine whose `int` has `w` bits, for every frame counter `c ≥ 0` and
every pixel `n` in `[0,N)`, `Paint` returns and the pixel's colour class is
`trunc((n - c)/25) rem 2` (Go's truncating `/` and `%`), mirrored to its absolute value when
negative: the pixel is pure red `(255,0,0)` when the class is 0 and pure green `(0,255,0)` when
it is 1, with brightness `6 + |(n - c) rem 25|`.  For `n ≥ c` this class is the floor class
`floor((n - c)/25) mod 2`.  With `c ≥ 0` the subtraction `n - c` does not wrap around, and the
loop over `All` ends on the machine with the same result. -/
theorem snakeRedGreen_colour_class {N : Nat} (w : Nat) (e : PaintEnv N) (hw : 0 < w)
    (hN : (N : Int) ≤ maxInt w) (hc : 0 ≤ e.Cycle) (hcmax : e.Cycle ≤ maxInt w) :
    ∃ e' : PaintEnv N, snakeRedGreen.Paint e = Except.ok e' ∧
      (∀ fuel, N < fuel → (All N).ForeachW w fuel snakeRedGreen.fn e = some (Except.ok e')) ∧
      ∀ n : Nat, n < N →
        wrapInt w ((n : Int) - e.Cycle) = (n : Int) - e.Cycle ∧
        snakeRedGreen.pos n e.Cycle = ((((n : Int) - e.Cycle).tdiv 25).tmod 2).natAbs ∧
        ((snakeRedGreen.pos n e.Cycle = 0 ∧
            e'.Mem.wire n = [0xe0 ||| (6 + (((n : Int) - e.Cycle).tmod 25).natAbs), 0, 0, 255]) ∨
          (snakeRedGreen.pos n e.Cycle = 1 ∧
            e'.Mem.wire n = [0xe0 ||| (6 + (((n : Int) - e.Cycle).tmod 25).natAbs), 0, 255, 0])) ∧
        (e.Cycle ≤ (n : Int) → floorClass n e.Cycle = snakeRedGreen.pos n e.Cycle) := by
  obtain ⟨m', h, hw', _⟩ := snakeRedGreen.Paint_result e
  have hmin : minInt w ≤ 0 := by
    have hp : (0 : Int) < 2 ^ (w - 1) := by positivity
    simp only [minInt]
    omega
  have hmm : minInt w = -(maxInt w) - 1 := by
    simp only [minInt, maxInt]
    omega
  refine ⟨_, h, fun fuel hf => ?_, fun n hn => ⟨?_, ?_, ?_, ?_⟩⟩
  · rw [Line.ForeachW_eq_Foreach w fuel (All N) snakeRedGreen.fn e hw hmin
      (by simp only [All]; omega) (by simp only [All]; omega)]
    exact congrArg some h
  · exact wrapInt_of_range w _ hw (by omega) (by omega)
  · simp only [snakeRedGreen.pos]
    split_ifs <;> omega
  · have hb := (snakeRedGreen.bright_range n e.Cycle).1
    show _ ∧ m'.wire n = _ ∨ _ ∧ m'.wire n = _
    rw [hw' n hn]
    rcases snakeRedGreen.pos_cases n e.Cycle with hp | hp
    · left
      refine ⟨hp, ?_⟩
      simp only [snakeRedGreen.colour, hp, if_true, hb]
    · right
      refine ⟨hp, ?_⟩
      have h' : ¬ ((1 : Int) = 0) := by decide
      simp only [snakeRedGreen.colour, hp, h', if_false, hb]
  · intro hc
    have h1 : Int.fdiv ((n : Int) - e.Cycle) 25 = Int.tdiv ((n : Int) - e.Cycle) 25 :=
      Int.fdiv_eq_tdiv (by omega) (by decide)
    have h2 : 0 ≤ Int.tdiv ((n : Int) - e.Cycle) 25 :=
      Int.tdiv_nonneg (by omega) (by decide)
    have h3 : Int.fmod (Int.tdiv ((n : Int) - e.Cycle) 25) 2 =
        Int.tmod (Int.tdiv ((n : Int) - e.Cycle) 25) 2 :=
      Int.fmod_eq_tmod h2 (by decide)
    simp only [floorClass, snakeRedGreen.pos, h1, h3]

/-- Witness for C17, on the 32-bit target: pixels 0 and 30 of the strip of the program at
frame counter 1. -/
theorem snakeRedGreen_colour_class_witness :
    (0 < 32 ∧ ((NumLight : Nat) : Int) ≤ maxInt 32 ∧ (0 : Int) ≤ 1 ∧ (1 : Int) ≤ maxInt 32) ∧
    ∃ e' : PaintEnv NumLight,
      snakeRedGreen.Paint ⟨Mem.zeroValue NumLight, 1, 0⟩ = Except.ok e' ∧
      e'.Mem.wire 0 = [0xe0 ||| 7, 0, 0, 255] ∧ e'.Mem.wire 30 = [0xe0 ||| 10, 0, 255, 0] := by
  refine ⟨⟨by decide, by decide, by decide, by decide⟩, ?_⟩
  obtain ⟨e', h, _, hall⟩ :=
    snakeRedGreen_colour_class (N := NumLight) 32 ⟨Mem.zeroValue NumLight, 1, 0⟩ (by decide)
      (by decide) (by decide) (by decide)
  refine ⟨e', h, ?_, ?_⟩
  · rcases (hall 0 (by decide)).2.2.1 with ⟨_, hw⟩ | ⟨hp, _⟩
    · exact hw
    · exact absurd hp (by decide)
  · rcases (hall 30 (by decide)).2.2.1 with ⟨hp, _⟩ | ⟨_, hw⟩
    · exact absurd hp (by decide)
    · exact hw

/-- C20.  `snakeRedGreen.Paint` never fails, for every frame counter (positive, zero or
negative) and every buffer: for every pixel `n` and counter `c` the colour class computed
with Go's truncating `/` and `%` is 0 or 1, and the brightness byte is
`6 + |(n - c) rem 25|`, which lies in `[6,30]`. -/
theorem snakeRedGreen_never_fails {N : Nat} (e : PaintEnv N) :
    (∃ e' : PaintEnv N, snakeRedGreen.Paint e = Except.ok e') ∧
    ∀ n c : Int,
      (snakeRedGreen.pos n c = 0 ∨ snakeRedGreen.pos n c = 1) ∧
      (6 + byteOf (snakeRedGreen.a n c)) % 256 = 6 + ((n - c).tmod 25).natAbs ∧
      6 ≤ (6 + byteOf (snakeRedGreen.a n c)) % 256 ∧
      (6 + byteOf (snakeRedGreen.a n c)) % 256 ≤ 30 := by
  obtain ⟨m', h, _⟩ := snakeRedGreen.Paint_result e
  exact ⟨⟨_, h⟩, fun n c => ⟨snakeRedGreen.pos_cases n c, snakeRedGreen.bright_range n c⟩⟩

/-! ## The band of `candyCane` -/

theorem forRange_eq_foldlM {σ : Type} (lo hi : Int) (body : Int → σ → Except String σ)
    (s : σ) :
    forRange lo hi body s = (indices lo hi).foldlM (fun s j => body j s) s :=
  Line.loop_of_fuel hi (fun p => body p.N) _ lo s (Nat.le_refl _)

theorem segs_low :
    ∀ seg ∈ segs, 82 ≤ seg.Low ∧ (seg.Low ≤ 168 ∨ 213 ≤ seg.Low) := by
  decide

/-- C19.  For every segment in `segs` and every band offset `d` with `-14 ≤ d ≤ 14`, on the
strip of the program (`N = NumLight = 184`): the indices that `candyCane.Paint` passes to
`setLight` for the band are `from, from + 1, ..., to`, every one of them lies in `[0,N)`,
and drawing the band returns without a panic. -/
theorem candyCane_band_in_range (seg : Line) (d : Int) (e : PaintEnv NumLight)
    (hseg : seg ∈ segs) (hd : -14 ≤ d ∧ d ≤ 14) :
    candyCane.drawBand e seg d =
      (indices (candyCane.band NumLight seg d).1 (candyCane.band NumLight seg d).2).foldlM
        (fun e n => e.setLight n 255 255 255 maxBright) e ∧
    (∀ n ∈ indices (candyCane.band NumLight seg d).1 (candyCane.band NumLight seg d).2,
      0 ≤ n ∧ n < (NumLight : Int)) ∧
    ∃ e' : PaintEnv NumLight, candyCane.drawBand e seg d = Except.ok e' := by
  have hN : ((NumLight : Nat) : Int) = 184 := by decide
  have hlow := segs_low seg hseg
  have hin : ∀ n ∈ indices (candyCane.band NumLight seg d).1 (candyCane.band NumLight seg d).2,
      0 ≤ n ∧ n < (NumLight : Int) := by
    intro n hn
    rw [mem_indices] at hn
    simp only [candyCane.band, hN] at hn
    rw [hN]
    split_ifs at hn <;> omega
  have heq := forRange_eq_foldlM (candyCane.band NumLight seg d).1
    (candyCane.band NumLight seg d).2
    (fun n (e : PaintEnv NumLight) => e.setLight n 255 255 255 maxBright) e
  refine ⟨heq, hin, ?_⟩
  obtain ⟨e', h'⟩ := foldlM_setLight_ok _ 255 255 255 maxBright (by decide) hin e
  exact ⟨e', by rw [candyCane.drawBand, heq, h']⟩

/-- Witness for C19: the segment `G3 = 168..212`, the one nearest the end of the strip, with
the largest offset: the band is `168..182`. -/
theorem candyCane_band_in_range_witness :
    (G3 ∈ segs ∧ ((-14 : Int) ≤ 14 ∧ (14 : Int) ≤ 14)) ∧
    candyCane.band NumLight G3 14 = (168, 182) ∧
    (∀ n ∈ indices (candyCane.band NumLight G3 14).1 (candyCane.band NumLight G3 14).2,
      0 ≤ n ∧ n < (NumLight : Int)) ∧
    ∃ e' : PaintEnv NumLight,
      candyCane.drawBand ⟨Mem.zeroValue NumLight, 0, 0⟩ G3 14 = Except.ok e' :=
  ⟨⟨by simp [segs], by decide⟩, by decide,
    (candyCane_band_in_range G3 14 ⟨Mem.zeroValue NumLight, 0, 0⟩ (by simp [segs])
      (by decide)).2⟩

/-! ## The animation `colorPlosion` -/

theorem Mem.wire_store4 {N : Nat} (m : Mem N) (k n r g b a : Nat) (hk : k < N) :
    (m.store4 (4 + 4 * k) r g b a).wire n =
      if n = k then [(0xe0 + a) % 256, b, g, r] else m.wire n := by
  have ho : 4 + 4 * k + 3 < memLen N := by rw [memLen_eq]; omega
  simp only [Mem.wire, Mem.byte_store4 m _ r g b a _ ho]
  by_cases h : n = k
  · subst h
    rw [if_pos rfl, if_pos rfl, if_neg (by omega), if_pos rfl, if_neg (by omega),
      if_neg (by omega), if_pos rfl, if_neg (by omega), if_neg (by omega), if_neg (by omega),
      if_pos rfl]
  · rw [if_neg h]
    repeat rw [if_neg (by omega)]

/-- A call of `maybeSetLight` with brightness at most 31 returns; it changes pixel `x` if
`x` is on the strip and nothing else. -/
theorem PaintEnv.maybeSetLight_ok {N : Nat} (e : PaintEnv N) (x : Int) (r g b a : Nat)
    (ha : a ≤ 31) :
    ∃ e' : PaintEnv N, e.maybeSetLight x r g b a = Except.ok e' ∧
      e'.Cycle = e.Cycle ∧ e'.nextSleep = e.nextSleep ∧
      (∀ n, n < N → (n : Int) = x → e'.Mem.wire n = [0xe0 ||| a, b, g, r]) ∧
      (∀ n, n < N → (n : Int) ≠ x → e'.Mem.wire n = e.Mem.wire n) ∧
      (∀ i, i < 4 ∨ 4 + 4 * N ≤ i → e'.Mem.byte i = e.Mem.byte i) := by
  by_cases hx : x < 0 ∨ x ≥ (N : Int)
  · refine ⟨e, ?_, rfl, rfl, fun n hn h => ?_, fun _ _ _ => rfl, fun _ _ => rfl⟩
    · simp only [PaintEnv.maybeSetLight, Mem.maybeSetLight, hx, if_true]
    · omega
  · obtain ⟨k, rfl⟩ : ∃ k : Nat, x = (k : Int) := ⟨x.toNat, by omega⟩
    have hk : k < N := by omega
    refine ⟨{ e with Mem := e.Mem.store4 (4 + 4 * k) r g b a }, ?_, rfl, rfl,
      fun n hn h => ?_, fun n hn h => ?_, fun i hi => ?_⟩
    · simp only [PaintEnv.maybeSetLight, Mem.maybeSetLight, hx, if_false,
        Mem.setLight_eq_store4 e.Mem k r g b a hk ha]
    · show (e.Mem.store4 (4 + 4 * k) r g b a).wire n = _
      rw [Mem.wire_store4 e.Mem k n r g b a hk, if_pos (by omega), bright_or a ha]
    · show (e.Mem.store4 (4 + 4 * k) r g b a).wire n = _
      rw [Mem.wire_store4 e.Mem k n r g b a hk, if_neg (by omega)]
    · show (e.Mem.store4 (4 + 4 * k) r g b a).byte i = _
      rw [Mem.byte_store4 e.Mem _ r g b a i (by rw [memLen_eq]; omega)]
      repeat rw [if_neg (by omega)]

/-- Drawing the ring positions for the radii in `l` returns; it gives the ring colour to the
pixels at distance `s` from the origin for some `s` in `l`, and changes nothing else. -/
theorem colorPlosion.ring_fold {N : Nat} (o : Int) (c : Nat × Nat × Nat) (l : List Int)
    (e : PaintEnv N) :
    ∃ e' : PaintEnv N, l.foldlM (fun e s => colorPlosion.ring o c s e) e = Except.ok e' ∧
      e'.Cycle = e.Cycle ∧ e'.nextSleep = e.nextSleep ∧
      (∀ n, n < N → (∃ s ∈ l, (n : Int) = o + s ∨ (n : Int) = o - s) →
        e'.Mem.wire n = [0xe0 ||| maxBright, c.2.2, c.2.1, c.1]) ∧
      (∀ n, n < N → (¬ ∃ s ∈ l, (n : Int) = o + s ∨ (n : Int) = o - s) →
        e'.Mem.wire n = e.Mem.wire n) ∧
      (∀ i, i < 4 ∨ 4 + 4 * N ≤ i → e'.Mem.byte i = e.Mem.byte i) := by
  induction l generalizing e with
  | nil =>
    refine ⟨e, rfl, rfl, rfl, ?_, fun _ _ _ => rfl, fun _ _ => rfl⟩
    rintro n _ ⟨s, hs, _⟩
    cases hs
  | cons s l ih =>
    obtain ⟨e₁, h₁, c₁, s₁, w₁, k₁, f₁⟩ :=
      PaintEnv.maybeSetLight_ok e (o + s) c.1 c.2.1 c.2.2 maxBright (by decide)
    obtain ⟨e₂, h₂, c₂, s₂, w₂, k₂, f₂⟩ :=
      PaintEnv.maybeSetLight_ok e₁ (o - s) c.1 c.2.1 c.2.2 maxBright (by decide)
    obtain ⟨e₃, h₃, c₃, s₃, w₃, k₃, f₃⟩ := ih e₂
    have hstep : colorPlosion.ring o c s e = Except.ok e₂ := by
      simp only [colorPlosion.ring, h₁, h₂]
    refine ⟨e₃, ?_, by rw [c₃, c₂, c₁], by rw [s₃, s₂, s₁], fun n hn hex => ?_,
      fun n hn hex => ?_, fun i hi => by rw [f₃ i hi, f₂ i hi, f₁ i hi]⟩
    · simp only [List.foldlM, bind, Except.bind, hstep]
      exact h₃
    · by_cases hl : ∃ t ∈ l, (n : Int) = o + t ∨ (n : Int) = o - t
      · exact w₃ n hn hl
      · rw [k₃ n hn hl]
        obtain ⟨t, ht, hnt⟩ := hex
        rcases List.mem_cons.mp ht with rfl | ht'
        · by_cases hm : (n : Int) = o - t
          · exact w₂ n hn hm
          · rw [k₂ n hn hm]
            rcases hnt with hp | hp
            · exact w₁ n hn hp
            · exact absurd hp hm
        · exact absurd ⟨t, ht', hnt⟩ hl
    · have hl : ¬ ∃ t ∈ l, (n : Int) = o + t ∨ (n : Int) = o - t := by
        rintro ⟨t, ht, hnt⟩
        exact hex ⟨t, List.mem_cons_of_mem _ ht, hnt⟩
      have hp : (n : Int) ≠ o + s := fun h => hex ⟨s, List.mem_cons_self _ _, Or.inl h⟩
      have hm : (n : Int) ≠ o - s := fun h => hex ⟨s, List.mem_cons_self _ _, Or.inr h⟩
      rw [k₃ n hn hl, k₂ n hn hm, k₁ n hn hp]

theorem colorPlosion.MapOK.mapLen_le {a : colorPlosion} (h : a.MapOK) :
    a.mapLen ≤ maxGrowers := by
  obtain ⟨ks, hm, hc, _⟩ := h
  simp only [colorPlosion.mapLen, hm]
  exact hc

theorem colorPlosion.Sync.length_le {a : colorPlosion} (hv : a.Valid) (h : a.Sync) :
    a.growers.length ≤ maxGrowers ∧ ∃ ks : Finset Nat, a.m = some ks ∧ ∀ g ∈ a.growers, g ∈ ks := by
  obtain ⟨ks, hm, hc, hiff⟩ := h
  refine ⟨?_, ks, hm, fun g hg => (hiff g).mpr hg⟩
  have : a.growers.toFinset = ks := by
    ext g
    rw [List.mem_toFinset]
    exact (hiff g).symm
  rw [← List.toFinset_card_of_nodup hv.1, this]
  exact hc

/-- The block `if e.Cycle == 0` returns and leaves a map as described by `MapOK`. -/
theorem colorPlosion.reset_spec {N : Nat} (a : colorPlosion) (e : PaintEnv N)
    (h : colorPlosion.Good a e) :
    ∃ (a₀ : colorPlosion) (e₀ : PaintEnv N), a.reset e = Except.ok (a₀, e₀) ∧
      a₀.Valid ∧ a₀.MapOK ∧ e₀.Cycle = e.Cycle := by
  obtain ⟨hv, hlen, hc | ⟨hpos, hm⟩⟩ := h
  · obtain ⟨m', hm', _⟩ := Foreach_All_paint (fun p (e : PaintEnv N) => p.set e 0 0 0 0)
      (fun _ => (0, 0, 0, 0)) e (fun _ _ => Nat.zero_le _) (fun _ _ _ _ => rfl)
    refine ⟨{ a with m := some ∅ }, { e with Mem := m' }, ?_, hv, ?_, rfl⟩
    · simp only [colorPlosion.reset, hc, if_true, hm']
    · refine ⟨∅, rfl, by decide, fun g hg => ?_, fun hcard => ?_⟩
      · exact absurd hg (Finset.not_mem_empty g)
      · exact absurd hcard (by decide)
  · refine ⟨a, e, ?_, hv, hm, rfl⟩
    have : ¬ e.Cycle = 0 := by omega
    simp only [colorPlosion.reset, this, if_false]

/-- The block `if len(a.m) < maxGrowers` returns and leaves `a.growers` listing exactly the
keys of the map. -/
theorem colorPlosion.spawn_spec (a : colorPlosion) (origin : Int) (u : ℚ)
    (hv : a.Valid) (hm : a.MapOK) :
    ∃ a₁ : colorPlosion, a.spawn origin u = Except.ok a₁ ∧ a₁.Valid ∧ a₁.Sync := by
  obtain ⟨ks, hks, hcard, hsub, hfull⟩ := hm
  by_cases hlt : ks.card < maxGrowers
  · have hfresh : a.heap.length ∉ a.growers := fun hmem => by
      have := hv.2 _ hmem
      omega
    have hnot : a.heap.length ∉ ks := fun hmem => hfresh (hsub _ hmem)
    refine ⟨⟨a.heap ++ [⟨origin, 0, u * 360⟩], some (insert a.heap.length ks),
        (a.growers ++ [a.heap.length]).filter
          (fun g => g ∈ insert a.heap.length ks)⟩, ?_, ⟨?_, ?_⟩, ?_⟩
    · simp only [colorPlosion.spawn, colorPlosion.mapLen, hks, hlt, if_true]
    · apply List.Nodup.filter
      rw [List.nodup_append]
      refine ⟨hv.1, List.nodup_singleton _, ?_⟩
      intro g hg hg'
      rw [List.mem_singleton] at hg'
      subst hg'
      exact hfresh hg
    · intro g hg
      simp only [List.mem_filter, List.mem_append, List.mem_singleton] at hg
      simp only [List.length_append, List.length_singleton]
      rcases hg.1 with h | h
      · have := hv.2 g h
        omega
      · omega
    · refine ⟨insert a.heap.length ks, rfl, ?_, fun g => ?_⟩
      · rw [Finset.card_insert_of_not_mem hnot]
        omega
      · simp only [List.mem_filter, List.mem_append, List.mem_singleton, decide_eq_true_eq,
          Finset.mem_insert]
        constructor
        · rintro (h | h)
          · exact ⟨Or.inr h, Or.inl h⟩
          · exact ⟨Or.inl (hsub g h), Or.inr h⟩
        · exact fun h => h.2
  · have hfull' : ks.card = maxGrowers := by omega
    refine ⟨a, ?_, hv, ks, hks, hcard, fun g => ⟨hsub g, hfull hfull' g⟩⟩
    simp only [colorPlosion.spawn, colorPlosion.mapLen, hks, hlt, if_false]

/-- One pass of the body of the drawing loop on an allocated grower returns; it keeps the
slice and the allocation, can only remove keys from the map and keeps `Cycle`. -/
theorem colorPlosion.grow_spec {N : Nat} (rgb : ℚ → Nat × Nat × Nat) (gr : Nat)
    (a : colorPlosion) (e : PaintEnv N) (ks : Finset Nat)
    (hg : gr < a.heap.length) (hm : a.m = some ks) :
    ∃ (a' : colorPlosion) (e' : PaintEnv N),
      colorPlosion.grow rgb gr (a, e) = Except.ok (a', e') ∧
      a'.growers = a.growers ∧ a'.heap.length = a.heap.length ∧
      (∃ ks' : Finset Nat, a'.m = some ks' ∧ ks' ⊆ ks) ∧ e'.Cycle = e.Cycle := by
  have hget : a.heap[gr]? = some (a.heap[gr]) := List.getElem?_eq_getElem hg
  by_cases hsz : (a.heap[gr]).Size + 2 > maxSize
  · refine ⟨⟨a.heap.set gr { a.heap[gr] with Size := (a.heap[gr]).Size + 2 },
        a.m.map (fun ks => ks.erase gr), a.growers⟩, e, ?_, rfl, ?_,
      ⟨ks.erase gr, ?_, Finset.erase_subset gr ks⟩, rfl⟩
    · simp only [colorPlosion.grow, hget, hsz, if_true]
    · simp
    · simp [hm]
  · obtain ⟨e', h', hc, _⟩ := colorPlosion.ring_fold (a.heap[gr]).Origin
      (rgb (a.heap[gr]).Hue) (indices 0 ((a.heap[gr]).Size + 2)) e
    refine ⟨⟨a.heap.set gr { a.heap[gr] with Size := (a.heap[gr]).Size + 2 }, a.m,
        a.growers⟩, e', ?_, rfl, ?_, ⟨ks, hm, Finset.Subset.refl ks⟩, hc⟩
    · simp only [colorPlosion.grow, hget, hsz, if_false, forRange_eq_foldlM, h']
    · simp

theorem colorPlosion.grow_fold {N : Nat} (rgb : ℚ → Nat × Nat × Nat) (l : List Nat) :
    ∀ (a : colorPlosion) (e : PaintEnv N) (ks : Finset Nat),
      (∀ g ∈ l, g < a.heap.length) → a.m = some ks →
      ∃ (a' : colorPlosion) (e' : PaintEnv N),
        l.foldlM (fun st gr => colorPlosion.grow rgb gr st) (a, e) = Except.ok (a', e') ∧
        a'.growers = a.growers ∧ a'.heap.length = a.heap.length ∧
        (∃ ks' : Finset Nat, a'.m = some ks' ∧ ks' ⊆ ks) ∧ e'.Cycle = e.Cycle := by
  induction l with
  | nil =>
    intro a e ks _ hm
    exact ⟨a, e, rfl, rfl, rfl, ⟨ks, hm, Finset.Subset.refl ks⟩, rfl⟩
  | cons g l ih =>
    intro a e ks hl hm
    obtain ⟨a₁, e₁, h₁, hg₁, hh₁, ⟨ks₁, hm₁, hs₁⟩, hc₁⟩ :=
      colorPlosion.grow_spec rgb g a e ks (hl g (List.mem_cons_self g l)) hm
    obtain ⟨a₂, e₂, h₂, hg₂, hh₂, ⟨ks₂, hm₂, hs₂⟩, hc₂⟩ :=
      ih a₁ e₁ ks₁ (fun x hx => by
        rw [hh₁]
        exact hl x (List.mem_cons_of_mem g hx)) hm₁
    refine ⟨a₂, e₂, ?_, by rw [hg₂, hg₁], by rw [hh₂, hh₁],
      ⟨ks₂, hm₂, Finset.Subset.trans hs₂ hs₁⟩, by rw [hc₂, hc₁]⟩
    simp only [List.foldlM, bind, Except.bind, h₁]
    exact h₂

/-- The drawing loop, started with `a.growers` listing exactly the keys of the map, returns
and leaves a map as described by `MapOK`. -/
theorem colorPlosion.draw_spec {N : Nat} (rgb : ℚ → Nat × Nat × Nat) (a : colorPlosion)
    (e : PaintEnv N) (hv : a.Valid) (hs : a.Sync) :
    ∃ (a₂ : colorPlosion) (e₂ : PaintEnv N), a.draw rgb e = Except.ok (a₂, e₂) ∧
      a₂.Valid ∧ a₂.MapOK ∧ e₂.Cycle = e.Cycle := by
  obtain ⟨ks, hm, hcard, hiff⟩ := hs
  obtain ⟨a₂, e₂, h₂, hg, hh, ⟨ks', hm', hsub⟩, hc⟩ :=
    colorPlosion.grow_fold rgb a.growers a e ks hv.2 hm
  refine ⟨a₂, e₂, h₂, ⟨?_, ?_⟩, ⟨ks', hm', ?_, ?_, ?_⟩, hc⟩
  · rw [hg]
    exact hv.1
  · rw [hg, hh]
    exact hv.2
  · exact Nat.le_trans (Finset.card_le_card hsub) hcard
  · intro g hg'
    rw [hg]
    exact (hiff g).mp (hsub hg')
  · intro hfull g hg'
    rw [hg] at hg'
    have : ks' = ks := Finset.eq_of_subset_of_card_le hsub (by omega)
    rw [this]
    exact (hiff g).mpr hg'

/-- From a state in which a frame may start, `Paint` returns, with the state at the start of
its drawing loop as described by `Sync`, and leaves a map as described by `MapOK`. -/
theorem colorPlosion.Paint_invariant {N : Nat} (rgb : ℚ → Nat × Nat × Nat) (a : colorPlosion)
    (origin : Int) (u : ℚ) (e : PaintEnv N) (h : colorPlosion.Good a e) :
    ∃ (a₀ : colorPlosion) (e₀ : PaintEnv N) (a₁ a₂ : colorPlosion) (e₂ : PaintEnv N),
      a.reset e = Except.ok (a₀, e₀) ∧ a₀.spawn origin u = Except.ok a₁ ∧
      a₁.draw rgb e₀ = Except.ok (a₂, e₂) ∧
      colorPlosion.Paint rgb a origin u e = Except.ok (a₂, e₂) ∧
      a₁.Valid ∧ a₁.Sync ∧ a₂.Valid ∧ a₂.MapOK ∧ e₂.Cycle = e.Cycle := by
  obtain ⟨a₀, e₀, h₀, hv₀, hm₀, hc₀⟩ := colorPlosion.reset_spec a e h
  obtain ⟨a₁, h₁, hv₁, hs₁⟩ := colorPlosion.spawn_spec a₀ origin u hv₀ hm₀
  obtain ⟨a₂, e₂, h₂, hv₂, hm₂, hc₂⟩ := colorPlosion.draw_spec rgb a₁ e₀ hv₁ hs₁
  refine ⟨a₀, e₀, a₁, a₂, e₂, h₀, h₁, h₂, ?_, hv₁, hs₁, hv₂, hm₂, by rw [hc₂, hc₀]⟩
  simp only [colorPlosion.Paint, h₀, h₁, h₂]

/-- A run of frames from a state in which a frame may start returns in such a state, the
frame counter having advanced by the number of frames. -/
theorem colorPlosion.frames_spec {N : Nat} (rgb : ℚ → Nat × Nat × Nat)
    (rs : List (Int × ℚ)) :
    ∀ (a : colorPlosion) (e : PaintEnv N), colorPlosion.Good a e → 0 ≤ e.Cycle →
      ∃ (a' : colorPlosion) (e' : PaintEnv N),
        colorPlosion.frames rgb rs (a, e) = Except.ok (a', e') ∧
        colorPlosion.Good a' e' ∧ e'.Cycle = e.Cycle + (rs.length : Int) := by
  induction rs with
  | nil =>
    intro a e h _
    exact ⟨a, e, rfl, h, by simp⟩
  | cons rv rs ih =>
    intro a e h hc
    obtain ⟨a₀, e₀, a₁, a₂, e₂, _, _, _, hp, _, _, hv₂, hm₂, hc₂⟩ :=
      colorPlosion.Paint_invariant rgb a rv.1 rv.2 e h
    have hgood : colorPlosion.Good a₂ ({ e₂ with Cycle := e₂.Cycle + 1 } : PaintEnv N) :=
      ⟨hv₂, hm₂.mapLen_le, Or.inr ⟨by show 0 < e₂.Cycle + 1; omega, hm₂⟩⟩
    obtain ⟨a', e', h', hg', hc'⟩ := ih a₂ { e₂ with Cycle := e₂.Cycle + 1 } hgood
      (by show 0 ≤ e₂.Cycle + 1; omega)
    refine ⟨a', e', ?_, hg', ?_⟩
    · simp only [colorPlosion.frames, hp]
      exact h'
    · rw [hc']
      show e₂.Cycle + 1 + (rs.length : Int) = e.Cycle + ((rv :: rs).length : Int)
      rw [hc₂, List.length_cons]
      push_cast
      ring

theorem colorPlosion.Good_fresh {N : Nat} (m : Mem N) (d : Int) :
    colorPlosion.Good colorPlosion.fresh (⟨m, 0, d⟩ : PaintEnv N) :=
  ⟨⟨List.nodup_nil, fun g hg => absurd hg (List.not_mem_nil g)⟩, Nat.zero_le _, Or.inl rfl⟩

/-- C11, as stated, fails: a fresh `colorPlosion` first painted at frame counter 1 skips the
initialization, so its map is still nil, and `Paint` panics when it enters the first grower
in the map. -/
theorem colorPlosion_first_paint_at_one_fails :
    colorPlosion.Paint (fun _ => (0, 0, 0)) colorPlosion.fresh 0 0
        (⟨Mem.zeroValue NumLight, 1, 0⟩ : PaintEnv NumLight) =
      Except.error "assignment to entry in nil map" := by
  rfl

/-- C11, amended.  When a fresh `colorPlosion` is painted at frame counter 0, its
initialization runs: the block `if e.Cycle == 0` clears every pixel to black and makes the
grower set empty, and `Paint` completes without a panic; afterwards there is exactly one
grower, of size 2, its ring (the pixels within distance 2 of its origin) has the ring colour at
full brightness and every other pixel is black. -/
theorem colorPlosion_first_paint {N : Nat} (rgb : ℚ → Nat × Nat × Nat) (m : Mem N) (d : Int)
    (origin : Int) (u : ℚ) :
    ∃ e₀ e' : PaintEnv N,
      colorPlosion.fresh.reset (⟨m, 0, d⟩ : PaintEnv N) = Except.ok (⟨[], some ∅, []⟩, e₀) ∧
      (∀ n, n < N → e₀.Mem.wire n = [0xe0 ||| 0, 0, 0, 0]) ∧
      colorPlosion.Paint rgb colorPlosion.fresh origin u (⟨m, 0, d⟩ : PaintEnv N) =
        Except.ok (⟨[⟨origin, 2, u * 360⟩], some {0}, [0]⟩, e') ∧
      (∀ n, n < N → (origin - 2 ≤ (n : Int) ∧ (n : Int) ≤ origin + 2) →
        e'.Mem.wire n =
          [0xe0 ||| maxBright, (rgb (u * 360)).2.2, (rgb (u * 360)).2.1, (rgb (u * 360)).1]) ∧
      (∀ n, n < N → ((n : Int) < origin - 2 ∨ origin + 2 < (n : Int)) →
        e'.Mem.wire n = [0xe0 ||| 0, 0, 0, 0]) := by
  obtain ⟨m', hm', hw, _⟩ := Foreach_All_paint (fun p (e : PaintEnv N) => p.set e 0 0 0 0)
    (fun _ => (0, 0, 0, 0)) (⟨m, 0, d⟩ : PaintEnv N) (fun _ _ => Nat.zero_le _)
    (fun _ _ _ _ => rfl)
  obtain ⟨e', h', _, _, wr, wk, _⟩ := colorPlosion.ring_fold origin (rgb (u * 360))
    (indices 0 2) (⟨m', 0, d⟩ : PaintEnv N)
  have hreset : colorPlosion.fresh.reset (⟨m, 0, d⟩ : PaintEnv N) =
      Except.ok (⟨[], some ∅, []⟩, (⟨m', 0, d⟩ : PaintEnv N)) := by
    simp only [colorPlosion.reset, if_true, hm', colorPlosion.fresh]
  have hspawn : colorPlosion.spawn ⟨[], some ∅, []⟩ origin u =
      Except.ok ⟨[⟨origin, 0, u * 360⟩], some {0}, [0]⟩ := by
    rfl
  have hsz : ¬ ((2 : Int) > maxSize) := by decide
  have hdraw : colorPlosion.draw rgb ⟨[⟨origin, 0, u * 360⟩], some {0}, [0]⟩
      (⟨m', 0, d⟩ : PaintEnv N) =
      Except.ok (⟨[⟨origin, 2, u * 360⟩], some {0}, [0]⟩, e') := by
    have hfor : forRange 0 2 (colorPlosion.ring origin (rgb (u * 360)))
        (⟨m', 0, d⟩ : PaintEnv N) = Except.ok e' := by
      rw [forRange_eq_foldlM]
      exact h'
    simp only [colorPlosion.draw, List.foldlM, bind, Except.bind, colorPlosion.grow,
      List.getElem?_cons_zero, hsz, if_false, zero_add, hfor, pure, Except.pure,
      List.set_cons_zero]
  refine ⟨_, e', hreset, hw, ?_, fun n hn hin => ?_, fun n hn hout => ?_⟩
  · simp only [colorPlosion.Paint, hreset, hspawn, hdraw]
  · apply wr n hn
    by_cases hge : origin ≤ (n : Int)
    · exact ⟨(n : Int) - origin, by rw [mem_indices]; omega, Or.inl (by omega)⟩
    · exact ⟨origin - (n : Int), by rw [mem_indices]; omega, Or.inr (by omega)⟩
  · rw [wk n hn]
    · exact hw n hn
    · rintro ⟨s, hs, hns⟩
      rw [mem_indices] at hs
      omega

/-- C18.  For every run of `colorPlosion.Paint` calls that starts on a fresh instance at
frame counter 0 and continues with the counter increasing by 1, and for every sequence of
random choices: every `Paint` returns; after the run the map of active growers has at most 10
keys; and in the `Paint` that follows, the slice `a.growers` that the drawing loop ranges over
has at most 10 elements, every one of them a key of the map at the start of the loop, and the
map again has at most 10 keys afterwards. -/
theorem colorPlosion_cap {N : Nat} (rgb : ℚ → Nat × Nat × Nat) (m : Mem N) (d : Int)
    (rs : List (Int × ℚ)) (rv : Int × ℚ) :
    ∃ (a : colorPlosion) (e : PaintEnv N),
      colorPlosion.frames rgb rs (colorPlosion.fresh, ⟨m, 0, d⟩) = Except.ok (a, e) ∧
      e.Cycle = rs.length ∧ a.mapLen ≤ maxGrowers ∧
      ∃ (a₀ : colorPlosion) (e₀ : PaintEnv N) (a₁ a₂ : colorPlosion) (e₂ : PaintEnv N),
        a.reset e = Except.ok (a₀, e₀) ∧ a₀.spawn rv.1 rv.2 = Except.ok a₁ ∧
        a₁.draw rgb e₀ = Except.ok (a₂, e₂) ∧
        colorPlosion.Paint rgb a rv.1 rv.2 e = Except.ok (a₂, e₂) ∧
        a₁.growers.length ≤ maxGrowers ∧
        (∃ ks : Finset Nat, a₁.m = some ks ∧ ks.card ≤ maxGrowers ∧
          ∀ g ∈ a₁.growers, g ∈ ks) ∧
        a₂.mapLen ≤ maxGrowers := by
  obtain ⟨a, e, h, hgood, hc⟩ := colorPlosion.frames_spec rgb rs colorPlosion.fresh
    (⟨m, 0, d⟩ : PaintEnv N) (colorPlosion.Good_fresh m d) (Int.le_refl 0)
  obtain ⟨a₀, e₀, a₁, a₂, e₂, h₀, h₁, h₂, hp, hv₁, hs₁, _, hm₂, _⟩ :=
    colorPlosion.Paint_invariant rgb a rv.1 rv.2 e hgood
  obtain ⟨hlen, _⟩ := hs₁.length_le hv₁
  obtain ⟨ks, hks, hcard, hiff⟩ := hs₁
  refine ⟨a, e, h, ?_, hgood.2.1, a₀, e₀, a₁, a₂, e₂, h₀, h₁, h₂, hp, hlen,
    ⟨ks, hks, hcard, fun g hg => (hiff g).mpr hg⟩, hm₂.mapLen_le⟩
  rw [hc]
  show (0 : Int) + (rs.length : Int) = (rs.length : Int)
  omega

/-! ## The render cycle -/

theorem PaintEnv.call_Cycle {N : Nat} (e e' : PaintEnv N) (c : EnvCall)
    (h : e.call c = Except.ok e') : e'.Cycle = e.Cycle := by
  have h' : e.calls [c] = Except.ok e' := by
    simp only [PaintEnv.calls, List.foldlM, bind, Except.bind, h]
    rfl
  exact (PaintEnv.calls_ok [c] e e' h').1

theorem PaintEnv.calls_append {N : Nat} (cs cs' : List EnvCall) (e : PaintEnv N) :
    e.calls (cs ++ cs') =
      match e.calls cs with
      | Except.ok e' => e'.calls cs'
      | Except.error msg => Except.error msg := by
  simp only [PaintEnv.calls, List.foldlM_append, bind, Except.bind]
  cases List.foldlM PaintEnv.call e cs <;> rfl

/-- A loop whose callback makes one call on the environment for every index, the call
depending on the index and on the frame counter only, is the sequence of those calls. -/
theorem foldlM_eq_calls {N : Nat} (fn : Pixel → PaintEnv N → Except String (PaintEnv N))
    (c : Int → EnvCall) (cyc : Int) :
    ∀ (l : List Int) (e : PaintEnv N), e.Cycle = cyc →
      (∀ j ∈ l, ∀ e₁ : PaintEnv N, e₁.Cycle = cyc → fn ⟨j⟩ e₁ = e₁.call (c j)) →
      l.foldlM (fun e j => fn ⟨j⟩ e) e = e.calls (l.map c) := by
  intro l
  induction l with
  | nil =>
    intro e _ _
    rfl
  | cons j l ih =>
    intro e he hfn
    simp only [List.map_cons, PaintEnv.calls, List.foldlM, bind, Except.bind]
    rw [hfn j (List.mem_cons_self j l) e he]
    cases h : e.call (c j) with
    | error msg => rfl
    | ok e₁ =>
      exact ih e₁ ((PaintEnv.call_Cycle e e₁ (c j) h).trans he)
        (fun j' hj' => hfn j' (List.mem_cons_of_mem j hj'))

/-- The animation `snakeRedGreen` acts on the environment through the calls
`snakeRedGreen.calls`. -/
theorem snakeRedGreen_Paint_eq_calls {N : Nat} (e : PaintEnv N) :
    snakeRedGreen.Paint e = e.calls (snakeRedGreen.calls N e.Cycle) := by
  rw [snakeRedGreen.Paint, Line.Foreach_eq_foldlM, indices_All,
    foldlM_eq_calls snakeRedGreen.fn
      (fun j => EnvCall.setLight j (snakeRedGreen.colour e.Cycle j.toNat).1
        (snakeRedGreen.colour e.Cycle j.toNat).2.1 (snakeRedGreen.colour e.Cycle j.toNat).2.2.1
        (snakeRedGreen.colour e.Cycle j.toNat).2.2.2) e.Cycle _ e rfl]
  · simp only [snakeRedGreen.calls, List.map_map]
    congr 1
    apply List.map_congr_left
    intro n _
    simp only [Function.comp, zero_add, Int.toNat_ofNat]
  · intro j hj e₁ he₁
    simp only [List.mem_map, List.mem_range] at hj
    obtain ⟨n, _, rfl⟩ := hj
    simp only [zero_add, Int.toNat_ofNat, snakeRedGreen.fn_eq, he₁, PaintEnv.call]

/-- The loop of `seahawks.Paint` acts on the environment through the calls
`seahawks.calls`. -/
theorem seahawks.loop_eq_calls {N : Nat} (sg : List Line) :
    ∀ (i : Nat) (e : PaintEnv N), seahawks.loop sg i e = e.calls (seahawks.calls sg i) := by
  induction sg with
  | nil =>
    intro i e
    rfl
  | cons seg sg ih =>
    intro i e
    simp only [seahawks.loop, seahawks.calls, PaintEnv.calls_append]
    rw [Line.Foreach_eq_foldlM, foldlM_eq_calls
      (fun p (e : PaintEnv N) => p.set e (seahawks.colour i).1 (seahawks.colour i).2.1
        (seahawks.colour i).2.2.1 (seahawks.colour i).2.2.2)
      (fun j => EnvCall.setLight j (seahawks.colour i).1 (seahawks.colour i).2.1
        (seahawks.colour i).2.2.1 (seahawks.colour i).2.2.2) e.Cycle _ e rfl
      (fun _ _ _ _ => rfl)]
    cases e.calls ((indices seg.Low seg.High).map (fun j =>
      EnvCall.setLight j (seahawks.colour i).1 (seahawks.colour i).2.1
        (seahawks.colour i).2.2.1 (seahawks.colour i).2.2.2)) with
    | error msg => rfl
    | ok e₁ => exact ih (i + 1) e₁

/-- The animation `seahawks` acts on the environment through the calls of its loop, then
`Sleep(300ms)`. -/
theorem seahawks_Paint_eq_calls {N : Nat} (e : PaintEnv N) :
    seahawks.Paint e =
      e.calls (seahawks.calls segs 0 ++ [EnvCall.Sleep (300 * Millisecond)]) := by
  simp only [seahawks.Paint, seahawks.loop_eq_calls, PaintEnv.calls_append]
  cases e.calls (seahawks.calls segs 0) <;> rfl

theorem noSleep_nil : noSleep [] := by
  intro c hc
  cases hc

theorem noSleep_append (cs cs' : List EnvCall) (h : noSleep cs) (h' : noSleep cs') :
    noSleep (cs ++ cs') := by
  intro c hc d
  rcases List.mem_append.mp hc with hc | hc
  · exact h c hc d
  · exact h' c hc d

/-- A sequence of calls without `Sleep` asks for no delay. -/
theorem lastSleep_of_noSleep (cs : List EnvCall) (h : noSleep cs) : lastSleep cs = 0 := by
  have key : ∀ d, cs.foldl sleepStep d = d := by
    induction cs with
    | nil =>
      intro d
      rfl
    | cons c cs ih =>
      intro d
      simp only [List.foldl]
      rw [h c (List.mem_cons_self c cs) d]
      exact ih (fun c' hc' => h c' (List.mem_cons_of_mem c hc')) d
  exact key 0

theorem colorPlosion.ring_eq_calls {N : Nat} (o : Int) (c : Nat × Nat × Nat) (s : Int)
    (e : PaintEnv N) :
    colorPlosion.ring o c s e = e.calls (colorPlosion.ringCalls o c s) := by
  simp only [colorPlosion.ring, colorPlosion.ringCalls, PaintEnv.calls, List.foldlM, bind,
    Except.bind, PaintEnv.call]
  cases e.maybeSetLight (o + s) c.1 c.2.1 c.2.2 maxBright with
  | error msg => rfl
  | ok e' =>
    dsimp only
    cases e'.maybeSetLight (o - s) c.1 c.2.1 c.2.2 maxBright <;> rfl

/-- A loop whose body is a sequence of calls that depends on the index only is the
concatenation of those sequences. -/
theorem foldlM_eq_calls_flatten {N : Nat} (fn : Int → PaintEnv N → Except String (PaintEnv N))
    (c : Int → List EnvCall) (hfn : ∀ j e, fn j e = e.calls (c j)) :
    ∀ (l : List Int) (e : PaintEnv N),
      l.foldlM (fun e j => fn j e) e = e.calls (l.map c).flatten := by
  intro l
  induction l with
  | nil =>
    intro e
    rfl
  | cons j l ih =>
    intro e
    simp only [List.map_cons, List.flatten_cons, PaintEnv.calls_append, List.foldlM, bind,
      Except.bind]
    rw [hfn j e]
    cases e.calls (c j) with
    | error msg => rfl
    | ok e₁ => exact ih e₁

theorem colorPlosion.noSleep_rings (o : Int) (c : Nat × Nat × Nat) (l : List Int) :
    noSleep (l.map (colorPlosion.ringCalls o c)).flatten := by
  intro x hx d
  simp only [List.mem_flatten, List.mem_map] at hx
  obtain ⟨cs, ⟨j, _, rfl⟩, hx⟩ := hx
  simp only [colorPlosion.ringCalls, List.mem_cons, List.mem_singleton, List.not_mem_nil,
    or_false] at hx
  rcases hx with rfl | rfl <;> rfl

/-- What one grower does to the environment is a sequence of `maybeSetLight` calls. -/
theorem colorPlosion.grow_calls {N : Nat} (rgb : ℚ → Nat × Nat × Nat) (gr : Nat)
    (st st' : colorPlosion × PaintEnv N) (h : colorPlosion.grow rgb gr st = Except.ok st') :
    ∃ cs, noSleep cs ∧ st.2.calls cs = Except.ok st'.2 := by
  simp only [colorPlosion.grow] at h
  cases hg : st.1.heap[gr]? with
  | none =>
    rw [hg] at h
    cases h
  | some g =>
    rw [hg] at h
    simp only at h
    by_cases hs : g.Size + 2 > maxSize
    · rw [if_pos hs] at h
      cases h
      exact ⟨[], noSleep_nil, rfl⟩
    · rw [if_neg hs, forRange_eq_foldlM, foldlM_eq_calls_flatten _
        (colorPlosion.ringCalls g.Origin (rgb g.Hue))
        (colorPlosion.ring_eq_calls g.Origin (rgb g.Hue))] at h
      cases hc : st.2.calls
          ((indices 0 (g.Size + 2)).map (colorPlosion.ringCalls g.Origin (rgb g.Hue))).flatten with
      | error msg =>
        rw [hc] at h
        cases h
      | ok e' =>
        rw [hc] at h
        cases h
        exact ⟨_, colorPlosion.noSleep_rings _ _ _, hc⟩

theorem colorPlosion.draw_calls {N : Nat} (rgb : ℚ → Nat × Nat × Nat) :
    ∀ (l : List Nat) (st st' : colorPlosion × PaintEnv N),
      l.foldlM (fun st gr => colorPlosion.grow rgb gr st) st = Except.ok st' →
      ∃ cs, noSleep cs ∧ st.2.calls cs = Except.ok st'.2 := by
  intro l
  induction l with
  | nil =>
    intro st st' h
    cases h
    exact ⟨[], noSleep_nil, rfl⟩
  | cons gr l ih =>
    intro st st' h
    simp only [List.foldlM, bind, Except.bind] at h
    cases hg : colorPlosion.grow rgb gr st with
    | error msg =>
      rw [hg] at h
      cases h
    | ok st₁ =>
      rw [hg] at h
      obtain ⟨cs₁, n₁, h₁⟩ := colorPlosion.grow_calls rgb gr st st₁ hg
      obtain ⟨cs₂, n₂, h₂⟩ := ih st₁ st' h
      refine ⟨cs₁ ++ cs₂, noSleep_append _ _ n₁ n₂, ?_⟩
      rw [PaintEnv.calls_append, h₁]
      exact h₂

theorem colorPlosion.reset_calls {N : Nat} (a a₀ : colorPlosion) (e e₀ : PaintEnv N)
    (h : a.reset e = Except.ok (a₀, e₀)) :
    ∃ cs, noSleep cs ∧ e.calls cs = Except.ok e₀ := by
  simp only [colorPlosion.reset] at h
  by_cases hc : e.Cycle = 0
  · rw [if_pos hc, Line.Foreach_eq_foldlM, foldlM_eq_calls
      (fun p (e : PaintEnv N) => p.set e 0 0 0 0) (fun j => EnvCall.setLight j 0 0 0 0)
      e.Cycle _ e rfl (fun _ _ _ _ => rfl)] at h
    cases hk : e.calls ((indices (All N).Low (All N).High).map
        (fun j => EnvCall.setLight j 0 0 0 0)) with
    | error msg =>
      rw [hk] at h
      cases h
    | ok e' =>
      rw [hk] at h
      cases h
      refine ⟨_, ?_, hk⟩
      intro c hc d
      simp only [List.mem_map] at hc
      obtain ⟨j, _, rfl⟩ := hc
      rfl
  · rw [if_neg hc] at h
    cases h
    exact ⟨[], noSleep_nil, rfl⟩

/-- Whatever the state of the instance and the random values of the frame, a `Paint` of
`colorPlosion` that returns has acted on the environment through a sequence of `setLight` and
`maybeSetLight` calls, without `Sleep`. -/
theorem colorPlosion.anim_calls {N : Nat} (rgb : ℚ → Nat × Nat × Nat) (a : colorPlosion)
    (origin : Int) (u : ℚ) (e e₁ : PaintEnv N)
    (h : (colorPlosion.anim rgb a origin u).Paint e = Except.ok e₁) :
    ∃ cs, noSleep cs ∧ e.calls cs = Except.ok e₁ := by
  simp only [colorPlosion.anim, colorPlosion.Paint] at h
  cases hr : a.reset e with
  | error msg =>
    rw [hr] at h
    cases h
  | ok r =>
    obtain ⟨a₀, e₀⟩ := r
    rw [hr] at h
    simp only at h
    cases hs : a₀.spawn origin u with
    | error msg =>
      rw [hs] at h
      cases h
    | ok a₁ =>
      rw [hs] at h
      simp only [colorPlosion.draw] at h
      cases hd : a₁.growers.foldlM (fun st gr => colorPlosion.grow rgb gr st) (a₁, e₀) with
      | error msg =>
        rw [hd] at h
        cases h
      | ok st =>
        rw [hd] at h
        cases h
        obtain ⟨cs₁, n₁, h₁⟩ := colorPlosion.reset_calls a a₀ e e₀ hr
        obtain ⟨cs₂, n₂, h₂⟩ := colorPlosion.draw_calls rgb a₁.growers (a₁, e₀) st hd
        refine ⟨cs₁ ++ cs₂, noSleep_append _ _ n₁ n₂, ?_⟩
        rw [PaintEnv.calls_append, h₁]
        exact h₂

theorem lastSleep_append_Sleep (cs : List EnvCall) (d : Int) :
    lastSleep (cs ++ [EnvCall.Sleep d]) = d := by
  simp only [lastSleep, List.foldl_append, List.foldl_cons, List.foldl_nil, sleepStep]

/-- The animations of this development act on the environment through `setLight`,
`maybeSetLight` and `Sleep` only, so each one that returns has made a sequence of such calls:
`off` and `seahawks` end with a `Sleep`, `snakeRedGreen` and `colorPlosion` make none. -/
theorem library_calls {N : Nat} (e e₁ : PaintEnv N) :
    (off.Paint e = Except.ok e₁ →
      e.calls (off.calls N) = Except.ok e₁ ∧ lastSleep (off.calls N) = 200 * Millisecond) ∧
    (seahawks.Paint e = Except.ok e₁ →
      e.calls (seahawks.calls segs 0 ++ [EnvCall.Sleep (300 * Millisecond)]) = Except.ok e₁ ∧
      lastSleep (seahawks.calls segs 0 ++ [EnvCall.Sleep (300 * Millisecond)]) =
        300 * Millisecond) ∧
    (snakeRedGreen.Paint e = Except.ok e₁ →
      e.calls (snakeRedGreen.calls N e.Cycle) = Except.ok e₁ ∧
      lastSleep (snakeRedGreen.calls N e.Cycle) = 0) ∧
    (∀ (rgb : ℚ → Nat × Nat × Nat) (a : colorPlosion) (origin : Int) (u : ℚ),
      (colorPlosion.anim rgb a origin u).Paint e = Except.ok e₁ →
      ∃ cs, e.calls cs = Except.ok e₁ ∧ lastSleep cs = 0) := by
  refine ⟨fun h => ⟨?_, ?_⟩, fun h => ⟨?_, ?_⟩, fun h => ⟨?_, ?_⟩, fun rgb a origin u h => ?_⟩
  · rw [← off.Paint_eq_calls]
    exact h
  · exact lastSleep_append_Sleep _ _
  · rw [← seahawks_Paint_eq_calls]
    exact h
  · exact lastSleep_append_Sleep _ _
  · rw [← snakeRedGreen_Paint_eq_calls]
    exact h
  · apply lastSleep_of_noSleep
    intro c hc d
    simp only [snakeRedGreen.calls, List.mem_map] at hc
    obtain ⟨n, _, rfl⟩ := hc
    rfl
  · obtain ⟨cs, hn, hc⟩ := colorPlosion.anim_calls rgb a origin u e e₁ h
    exact ⟨cs, hc, lastSleep_of_noSleep cs hn⟩

/-- C10, as stated, fails at the largest `int`.  On the 32-bit target, in the state with
`Cycle = 2147483647`, a cycle of `off` returns with `Cycle = -2147483648`: that is not the
previous value plus 1, and the counter has gone down.  The same happens with 64 bits at
`Cycle = 9223372036854775807`. -/
theorem cycle_at_largest_int_fails :
    PaintEnv.cycle 32 ⟨Mem.zeroValue 2, 2147483647, 77⟩ ⟨off.Paint⟩ Conn.good =
      Except.ok (⟨⟨[0, 0, 0, 0, 224, 0, 0, 0, 224, 0, 0, 0, 0], rfl⟩, -2147483648, 200000000⟩,
        some 200000000) ∧
    (-2147483648 : Int) ≠ 2147483647 + 1 ∧ (-2147483648 : Int) < 2147483647 ∧
    PaintEnv.cycle 64 ⟨Mem.zeroValue 2, 9223372036854775807, 77⟩ ⟨off.Paint⟩ Conn.good =
      Except.ok (⟨⟨[0, 0, 0, 0, 224, 0, 0, 0, 224, 0, 0, 0, 0], rfl⟩, -9223372036854775808,
        200000000⟩, some 200000000) ∧
    (-9223372036854775808 : Int) ≠ 9223372036854775807 + 1 ∧
    (-9223372036854775808 : Int) < 9223372036854775807 :=
  ⟨rfl, by decide, by decide, rfl, by decide, by decide⟩

/-- C10, amended.  One render cycle on a machine whose `int` has `w` bits, for every
environment state whose frame counter is an `int` below the largest `int`, and every animation
whose `Paint` returns, having acted on the environment through a sequence `cs` of `setLight`,
`maybeSetLight` and `Sleep` calls (`library_calls`): `Cycle` is then its previous value plus 1
and `nextSleep` is the duration last passed to `Sleep` during this `Paint`, or zero if `Paint`
did not call `Sleep`, whatever `nextSleep` held before.  If the bus accepts the frame the
cycle completes with that environment and the delay handed to `time.Sleep` is that duration
(no call when it is zero); if the bus refuses the frame the program ends with the `send`
error. -/
theorem cycle_spec {N : Nat} (w : Nat) (e : PaintEnv N) (anim : Animation N)
    (cs : List EnvCall) (dev : Conn) (e₁ : PaintEnv N) (hw : 0 < w)
    (hmin : minInt w ≤ e.Cycle) (hmax : e.Cycle < maxInt w)
    (hret : anim.Paint { e with nextSleep := 0 } = Except.ok e₁)
    (hcalls : PaintEnv.calls { e with nextSleep := 0 } cs = Except.ok e₁) :
    ∃ e' : PaintEnv N,
      e'.Cycle = e.Cycle + 1 ∧ e'.nextSleep = lastSleep cs ∧ e'.Mem = e₁.Mem ∧
      (e'.Mem.send dev = none →
        ∃ slept : Option Int, e.cycle w anim dev = Except.ok (e', slept) ∧
          slept.getD 0 = lastSleep cs ∧ (slept = none ↔ lastSleep cs = 0)) ∧
      (∀ err, e'.Mem.send dev = some err →
        e.cycle w anim dev = Except.error ("send: " ++ err)) := by
  obtain ⟨hc, hs⟩ := PaintEnv.calls_ok cs _ e₁ hcalls
  have hs' : e₁.nextSleep = lastSleep cs := hs
  have hc' : e₁.Cycle = e.Cycle := hc
  have hwr : wrapInt w (e₁.Cycle + 1) = e.Cycle + 1 := by
    rw [hc']
    exact wrapInt_of_range w (e.Cycle + 1) hw (by omega) (by omega)
  refine ⟨{ e₁ with Cycle := wrapInt w (e₁.Cycle + 1) }, hwr, hs', rfl, ?_, ?_⟩
  · intro hsend
    have hsend' : Mem.send (N := N) e₁.Mem dev = none := hsend
    refine ⟨if e₁.nextSleep ≠ 0 then some e₁.nextSleep else none, ?_, ?_, ?_⟩
    · simp only [PaintEnv.cycle, hret, hsend']
    · rw [← hs']
      by_cases h0 : e₁.nextSleep = 0
      · simp [h0]
      · simp [h0]
    · rw [← hs']
      by_cases h0 : e₁.nextSleep = 0
      · simp [h0]
      · simp [h0]
  · intro err hsend
    have hsend' : Mem.send (N := N) e₁.Mem dev = some err := hsend
    simp only [PaintEnv.cycle, hret, hsend']

/-- Witness for C10, on the 32-bit target: a two-pixel strip, frame counter 41, a stale
`nextSleep` of 77 ns, a bus that accepts the frame.  With `off` the counter becomes 42 and the
delay is the 200 ms that `off.Paint` asked for; with `snakeRedGreen`, which does not call
`Sleep`, the counter becomes 42 and there is no delay. -/
theorem cycle_spec_witness :
    (0 < 32 ∧ minInt 32 ≤ 41 ∧ (41 : Int) < maxInt 32) ∧
    PaintEnv.cycle 32 ⟨Mem.zeroValue 2, 41, 77⟩ ⟨off.Paint⟩ Conn.good =
      Except.ok (⟨⟨[0, 0, 0, 0, 224, 0, 0, 0, 224, 0, 0, 0, 0], rfl⟩, 42, 200000000⟩,
        some 200000000) ∧
    PaintEnv.cycle 32 ⟨Mem.zeroValue 2, 41, 77⟩ ⟨snakeRedGreen.Paint⟩ Conn.good =
      Except.ok (⟨⟨[0, 0, 0, 0, 246, 0, 255, 0, 245, 0, 255, 0, 0], rfl⟩, 42, 0⟩, none) ∧
    (∃ e' : PaintEnv 2,
      e'.Cycle = 41 + 1 ∧ e'.nextSleep = lastSleep (off.calls 2) ∧
      e'.Mem = (⟨[0, 0, 0, 0, 224, 0, 0, 0, 224, 0, 0, 0, 0], rfl⟩ : Mem 2) ∧
      (e'.Mem.send Conn.good = none →
        ∃ slept : Option Int,
          PaintEnv.cycle 32 ⟨Mem.zeroValue 2, 41, 77⟩ ⟨off.Paint⟩ Conn.good =
            Except.ok (e', slept) ∧
          slept.getD 0 = lastSleep (off.calls 2) ∧
          (slept = none ↔ lastSleep (off.calls 2) = 0)) ∧
      (∀ err, e'.Mem.send Conn.good = some err →
        PaintEnv.cycle 32 ⟨Mem.zeroValue 2, 41, 77⟩ ⟨off.Paint⟩ Conn.good =
          Except.error ("send: " ++ err))) ∧
    (∃ e' : PaintEnv 2,
      e'.Cycle = 41 + 1 ∧ e'.nextSleep = lastSleep (snakeRedGreen.calls 2 41) ∧
      e'.Mem = (⟨[0, 0, 0, 0, 246, 0, 255, 0, 245, 0, 255, 0, 0], rfl⟩ : Mem 2) ∧
      (e'.Mem.send Conn.good = none →
        ∃ slept : Option Int,
          PaintEnv.cycle 32 ⟨Mem.zeroValue 2, 41, 77⟩ ⟨snakeRedGreen.Paint⟩ Conn.good =
            Except.ok (e', slept) ∧
          slept.getD 0 = lastSleep (snakeRedGreen.calls 2 41) ∧
          (slept = none ↔ lastSleep (snakeRedGreen.calls 2 41) = 0)) ∧
      (∀ err, e'.Mem.send Conn.good = some err →
        PaintEnv.cycle 32 ⟨Mem.zeroValue 2, 41, 77⟩ ⟨snakeRedGreen.Paint⟩ Conn.good =
          Except.error ("send: " ++ err))) :=
  ⟨⟨by decide, by decide, by decide⟩, rfl, rfl,
    cycle_spec 32 ⟨Mem.zeroValue 2, 41, 77⟩ ⟨off.Paint⟩ (off.calls 2) Conn.good
      ⟨⟨[0, 0, 0, 0, 224, 0, 0, 0, 224, 0, 0, 0, 0], rfl⟩, 41, 200 * Millisecond⟩
      (by decide) (by decide) (by decide) rfl rfl,
    cycle_spec 32 ⟨Mem.zeroValue 2, 41, 77⟩ ⟨snakeRedGreen.Paint⟩ (snakeRedGreen.calls 2 41)
      Conn.good ⟨⟨[0, 0, 0, 0, 246, 0, 255, 0, 245, 0, 255, 0, 0], rfl⟩, 41, 0⟩
      (by decide) (by decide) (by decide) rfl rfl⟩

end Barlogalights
